import Mathlib

/-!
The httpd package: request parsing over a buffered connection

A shallow embedding of `src/httpd/request.go` and `src/httpd/conn.go`.

Go byte strings (`[]byte`, `string`) are lists of byte values.  The functions
of `request.go` keep their names.  The standard-library pieces they call
(`bufio.Reader`, `io.LimitedReader`, `strings`, `bytes`, `fmt.Sscanf`) are
embedded next to them, following the Go standard library.

`bufio.Reader.ReadLine` hands out a slice of the reader's own buffer ("the
returned buffer is only valid until the next call to ReadLine"), and
`readLine` keeps such a slice across calls, so slices are modelled as views
(offset, length, capacity) into the buffer held in the reader state.

Loops that are unbounded in Go (`for { ... }`) take a fuel argument and
return `none` when it runs out.
-/

namespace Httpd

/-- A Go byte string (`[]byte` or `string`), one natural number per byte. -/
abbrev Bytes := List Nat

/-- The bytes of an ASCII literal. -/
def ascii (s : String) : Bytes := s.toList.map Char.toNat

/-- Go `error` values that occur in the embedded code. -/
inductive GoError where
  | EOF
  | ErrBufferFull
  | ErrNoProgress
  | msg (text : String)
  deriving DecidableEq, Repr

/-! ## The connection and `io.LimitedReader` -/

/-- The read side of `net.Conn`: the chunks that successive `Read` calls
deliver, in order; after the last chunk every `Read` reports `io.EOF`. -/
abbrev Conn := List Bytes

/-- `rwc.Read(p)` with `len(p) = k`: at most `k` bytes of the next chunk. -/
def Conn.Read (R : Conn) (k : Nat) : (Bytes × Option GoError) × Conn :=
  match R with
  | [] => (([], some GoError.EOF), [])
  | c :: cs =>
    if c.length ≤ k then ((c, none), cs)
    else ((c.take k, none), c.drop k :: cs)

/-- `io.LimitedReader`: the wrapped reader `R` and the remaining budget `N`. -/
structure LimitedReader where
  R : Conn
  N : Int
  deriving DecidableEq, Repr

/-- `(*io.LimitedReader).Read(p)` with `len(p) = k`. -/
def LimitedReader.Read (l : LimitedReader) (k : Nat) :
    (Bytes × Option GoError) × LimitedReader :=
  if l.N ≤ 0 then (([], some GoError.EOF), l)
  else
    let k1 := if (k : Int) > l.N then l.N.toNat else k
    let res := Conn.Read l.R k1
    (res.1, { R := res.2, N := l.N - (res.1.1.length : Int) })

/-! ## `bufio.Reader` -/

/-- `bufio.Reader`: buffer, underlying reader, read and write positions and
the pending error. -/
structure Reader where
  buf : Bytes
  rd : LimitedReader
  r : Nat
  w : Nat
  err : Option GoError
  deriving DecidableEq, Repr

/-- `bufio.NewReaderSize(rd, size)` (sizes below 16 are raised to 16). -/
def NewReaderSize (rd : LimitedReader) (size : Nat) : Reader :=
  { buf := List.replicate (max size 16) 0, rd := rd, r := 0, w := 0, err := none }

/-- A Go slice of the reader's buffer: `buf[off : off+len]` with capacity `cap`. -/
structure Slice where
  off : Nat
  len : Nat
  cap : Nat
  deriving DecidableEq, Repr

/-- The bytes a slice of the buffer shows in reader state `b`. -/
def Slice.bytes (s : Slice) (b : Reader) : Bytes := (b.buf.drop s.off).take s.len

/-- The `nil` slice. -/
def Slice.nil : Slice := { off := 0, len := 0, cap := 0 }

/-- `bytes.IndexByte(s, c)`: `none` stands for `-1`. -/
def IndexByte (s : Bytes) (c : Nat) : Option Nat :=
  match s with
  | [] => none
  | x :: xs => if x = c then some 0 else (IndexByte xs c).map (· + 1)

/-- The read loop of `(*bufio.Reader).fill`, `i` attempts left. -/
def fillLoop (i : Nat) (b : Reader) : Reader :=
  match i with
  | 0 => { b with err := some GoError.ErrNoProgress }
  | i + 1 =>
    let res := b.rd.Read (b.buf.length - b.w)
    let d := res.1.1
    let b1 : Reader :=
      { b with buf := b.buf.take b.w ++ d ++ b.buf.drop (b.w + d.length),
               w := b.w + d.length, rd := res.2 }
    match res.1.2 with
    | some e => { b1 with err := some e }
    | none => if d.length > 0 then b1 else fillLoop i b1

/-- `(*bufio.Reader).fill`: slide the unread bytes to the front of the buffer,
then read new data (at most `maxConsecutiveEmptyReads = 100` attempts).  Its
guard `b.w >= len(b.buf)` cannot fire: `ReadSlice` calls `fill` only while
fewer than `len(b.buf)` bytes are buffered. -/
def fill (b : Reader) : Reader :=
  let b1 : Reader :=
    if b.r > 0 then
      { b with buf := (b.buf.take b.w).drop b.r ++ b.buf.drop (b.w - b.r),
               w := b.w - b.r, r := 0 }
    else b
  fillLoop 100 b1

/-- The loop of `(*bufio.Reader).ReadSlice('\n')`; `s` is the search start. -/
def ReadSliceLoop (fuel : Nat) (s : Nat) (b : Reader) :
    Option ((Slice × Option GoError) × Reader) :=
  match fuel with
  | 0 => none
  | fuel + 1 =>
    match IndexByte ((b.buf.take b.w).drop (b.r + s)) 10 with
    | some i =>
      some (({ off := b.r, len := i + s + 1, cap := b.buf.length - b.r }, none),
            { b with r := b.r + (i + s) + 1 })
    | none =>
      match b.err with
      | some e =>
        some (({ off := b.r, len := b.w - b.r, cap := b.buf.length - b.r }, some e),
              { b with r := b.w, err := none })
      | none =>
        if b.w - b.r ≥ b.buf.length then
          some (({ off := 0, len := b.buf.length, cap := b.buf.length },
                 some GoError.ErrBufferFull), { b with r := b.w })
        else ReadSliceLoop fuel (b.w - b.r) (fill b)

/-- `(*bufio.Reader).ReadSlice('\n')`. -/
def ReadSlice (fuel : Nat) (b : Reader) : Option ((Slice × Option GoError) × Reader) :=
  ReadSliceLoop fuel 0 b

/-- `(*bufio.Reader).ReadLine`: the line (a view of the buffer), the
`isPrefix` flag and the error. -/
def ReadLine (fuel : Nat) (b : Reader) :
    Option ((Slice × Bool × Option GoError) × Reader) :=
  match ReadSlice fuel b with
  | none => none
  | some ((line, err), b1) =>
    if err = some GoError.ErrBufferFull then
      if line.len > 0 ∧ (line.bytes b1).getLast? = some 13 then
        some (({ line with len := line.len - 1 }, true, none), { b1 with r := b1.r - 1 })
      else some ((line, true, none), b1)
    else if line.len = 0 then
      some ((if err ≠ none then Slice.nil else line, false, err), b1)
    else
      let txt := line.bytes b1
      if txt.getLast? = some 10 then
        let drop := if line.len > 1 ∧ txt.get? (line.len - 2) = some 13 then 2 else 1
        some (({ line with len := line.len - drop }, false, none), b1)
      else some ((line, false, none), b1)

/-! ## `readLine` (request.go) -/

/-- The variable `p` of `readLine`: a view of the reader's buffer, or a
backing array of its own once `append` had to reallocate. -/
inductive Buf where
  | view (s : Slice)
  | own (data : Bytes)
  deriving DecidableEq, Repr

/-- The bytes `p` shows in reader state `b`. -/
def Buf.bytes (p : Buf) (b : Reader) : Bytes :=
  match p with
  | Buf.view s => s.bytes b
  | Buf.own data => data

/-- Go `append(p, l...)` where `l` is a view of the reader's buffer.  While the
result fits the capacity of `p` the bytes are written in place, that is into
the reader's buffer when `p` is a view of it. -/
def appendSlice (b : Reader) (p : Buf) (l : Slice) : Buf × Reader :=
  match p with
  | Buf.view s =>
    if s.len + l.len ≤ s.cap then
      let d := l.bytes b
      (Buf.view { s with len := s.len + l.len },
       { b with buf := b.buf.take (s.off + s.len) ++ d ++ b.buf.drop (s.off + s.len + l.len) })
    else (Buf.own (s.bytes b ++ l.bytes b), b)
  | Buf.own data => (Buf.own (data ++ l.bytes b), b)

/-- The loop `for isPrefix { ... }` of `readLine`. -/
def readLineLoop (fuel : Nat) (b : Reader) (p : Buf) ( isPrefix : Bool) :
    Option ((Bytes × Option GoError) × Reader) :=
  if isPrefix = false then some ((p.bytes b, none), b)
  else
    match fuel with
    | 0 => none
    | fuel + 1 =>
      match ReadLine (fuel + 1) b with
      | none => none
      | some ((l, more, err), b1) =>
        if err ≠ none then some ((p.bytes b1, none), b1)
        else
          let pb := appendSlice b1 p l
          readLineLoop fuel pb.2 pb.1 more

/-- `readLine(bufr)`. -/
def readLine (fuel : Nat) (bufr : Reader) : Option ((Bytes × Option GoError) × Reader) :=
  match ReadLine fuel bufr with
  | none => none
  | some ((p, more, err), b1) =>
    if err ≠ none then some ((p.bytes b1, err), b1)
    else readLineLoop fuel b1 (Buf.view p) more

/-! ## `strings` and `strconv` -/

/-- The UTF-8 encodings of the white-space runes above U+007F that
`unicode.IsSpace` (and the `space` table of `fmt`) accepts: U+0085, U+00A0,
U+1680, U+2000..U+200A, U+2028, U+2029, U+202F, U+205F, U+3000. -/
def spaceSeqs : List Bytes :=
  [[0xC2, 0x85], [0xC2, 0xA0], [0xE1, 0x9A, 0x80],
   [0xE2, 0x80, 0x80], [0xE2, 0x80, 0x81], [0xE2, 0x80, 0x82], [0xE2, 0x80, 0x83],
   [0xE2, 0x80, 0x84], [0xE2, 0x80, 0x85], [0xE2, 0x80, 0x86], [0xE2, 0x80, 0x87],
   [0xE2, 0x80, 0x88], [0xE2, 0x80, 0x89], [0xE2, 0x80, 0x8A],
   [0xE2, 0x80, 0xA8], [0xE2, 0x80, 0xA9], [0xE2, 0x80, 0xAF], [0xE2, 0x81, 0x9F],
   [0xE3, 0x80, 0x80]]

/-- The ASCII white space of Go: `\t`, `\n`, `\v`, `\f`, `\r` and the blank. -/
def asciiSpace (c : Nat) : Bool := (9 ≤ c && c ≤ 13) || c = 32

/-- Width in bytes of the white-space rune whose encoding (taken from `tbl`
above U+007F) starts `s`; `0` when `s` does not start with white space. -/
def spaceWidth (tbl : List Bytes) (s : Bytes) : Nat :=
  match s with
  | [] => 0
  | c :: _ =>
    if asciiSpace c then 1
    else match tbl.find? (fun q => q.isPrefixOf s) with
      | some q => q.length
      | none => 0

/-- Strip leading white space; `fuel` bounds the number of runes stripped. -/
def stripSpace (tbl : List Bytes) (fuel : Nat) (s : Bytes) : Bytes :=
  match fuel with
  | 0 => s
  | fuel + 1 =>
    match spaceWidth tbl s with
    | 0 => s
    | k + 1 => stripSpace tbl fuel (s.drop (k + 1))

/-- `strings.TrimSpace`: leading and trailing white-space runes removed.  A
white-space rune ends `s` exactly when its encoding, read backwards, starts
the reversed string. -/
def TrimSpace (s : Bytes) : Bytes :=
  let t := stripSpace spaceSeqs s.length s
  (stripSpace (spaceSeqs.map List.reverse) t.length t.reverse).reverse

/-- `strings.Split(s, sep)` for a separator of one byte. -/
def Split (s : Bytes) (sep : Nat) : List Bytes :=
  match s with
  | [] => [[]]
  | c :: cs =>
    if c = sep then [] :: Split cs sep
    else match Split cs sep with
      | [] => [[c]]
      | p :: ps => (c :: p) :: ps

/-- A Go `map[string]V`, read as a finite partial function (`none`: no entry). -/
abbrev GoMap (V : Type) := Bytes → Option V

/-- The empty map, `make(map[string]V)`. -/
def GoMap.empty {V : Type} : GoMap V := fun _ => none

/-- The assignment `m[k] = v`. -/
def GoMap.set {V : Type} (m : GoMap V) (k : Bytes) (v : V) : GoMap V :=
  fun x => if x = k then some v else m x

/-- The expression `m[k]` on a `map[string]string`: the zero value `""` when
there is no entry. -/
def GoMap.index (m : GoMap Bytes) (k : Bytes) : Bytes := (m k).getD []

/-! ## `parseQuery` and `Query` (request.go) -/

/-- The loop body of `parseQuery` for one part. -/
def parseQueryStep (queries : GoMap Bytes) (part : Bytes) : GoMap Bytes :=
  match IndexByte part 61 with
  | none => queries
  | some index =>
    if index + 1 = part.length then queries
    else queries.set (TrimSpace (part.take index)) (TrimSpace (part.drop (index + 1)))

/-- `parseQuery(RawQuery)`. -/
def parseQuery (RawQuery : Bytes) : GoMap Bytes :=
  (Split RawQuery 38).foldl parseQueryStep GoMap.empty

/-! ## `readHeader` (request.go) -/

/-- The type `Header`, a `map[string][]string`. -/
abbrev Header := GoMap (List Bytes)

/-- The expression `header[k]` on a `Header`: `nil` when there is no entry. -/
def Header.index (h : Header) (k : Bytes) : List Bytes := (h k).getD []

/-- The loop of `readHeader`. -/
def readHeaderLoop (fuel : Nat) (bufr : Reader) (header : Header) :
    Option (Except GoError Header × Reader) :=
  match fuel with
  | 0 => none
  | fuel + 1 =>
    match readLine (fuel + 1) bufr with
    | none => none
    | some ((line, err), b1) =>
      match err with
      | some e => some (Except.error e, b1)
      | none =>
        if line.length = 0 then some (Except.ok header, b1)
        else
          match IndexByte line 58 with
          | none => some (Except.error (GoError.msg "unsupported protocol"), b1)
          | some i =>
            if i + 1 = line.length then readHeaderLoop fuel b1 header
            else
              let k := line.take i
              let v := TrimSpace (line.drop (i + 1))
              readHeaderLoop fuel b1 (header.set k (header.index k ++ [v]))

/-- `readHeader(bufr)`: the header mapping or the error (with which Go
returns the `nil` mapping), and the reader afterwards. -/
def readHeader (fuel : Nat) (bufr : Reader) : Option (Except GoError Header × Reader) :=
  readHeaderLoop fuel bufr GoMap.empty

/-! ## `fmt.Sscanf(line, "%s%s%s", ...)` -/

/-- A UTF-8 continuation byte. -/
def isCont (c : Nat) : Bool := 0x80 ≤ c && c ≤ 0xBF

/-- `utf8.DecodeRune`: the width of the rune encoded at the head of `s`, or
`none` where Go reports `RuneError` with width 1. -/
def runeWidth (s : Bytes) : Option Nat :=
  match s with
  | [] => none
  | c0 :: t =>
    if c0 < 0x80 then some 1
    else if 0xC2 ≤ c0 && c0 ≤ 0xDF then
      match t with
      | c1 :: _ => if isCont c1 then some 2 else none
      | _ => none
    else if 0xE0 ≤ c0 && c0 ≤ 0xEF then
      match t with
      | c1 :: c2 :: _ =>
        let lo := if c0 = 0xE0 then 0xA0 else 0x80
        let hi := if c0 = 0xED then 0x9F else 0xBF
        if lo ≤ c1 && c1 ≤ hi && isCont c2 then some 3 else none
      | _ => none
    else if 0xF0 ≤ c0 && c0 ≤ 0xF4 then
      match t with
      | c1 :: c2 :: c3 :: _ =>
        let lo := if c0 = 0xF0 then 0x90 else 0x80
        let hi := if c0 = 0xF4 then 0x8F else 0xBF
        if lo ≤ c1 && c1 ≤ hi && isCont c2 && isCont c3 then some 4 else none
      | _ => none
    else none

/-- `(*ss).SkipSpace` as `Sscanf` runs it (`nlIsSpace = false`): skip white
space, a newline in the input is an error. -/
def SkipSpace (fuel : Nat) (s : Bytes) : Except GoError Bytes :=
  match fuel with
  | 0 => Except.ok s
  | fuel + 1 =>
    match s with
    | [] => Except.ok []
    | c :: _ =>
      if c = 10 then Except.error (GoError.msg "unexpected newline")
      else match spaceWidth spaceSeqs s with
        | 0 => Except.ok s
        | k + 1 => SkipSpace fuel (s.drop (k + 1))

/-- The rune loop of `(*ss).token(true, notSpace)`: the runes up to the next
white space, written back with `utf8.AppendRune` (a byte that is not valid
UTF-8 becomes U+FFFD), and the rest of the input. -/
def token (fuel : Nat) (s : Bytes) : Bytes × Bytes :=
  match fuel with
  | 0 => ([], s)
  | fuel + 1 =>
    match s with
    | [] => ([], [])
    | _ :: _ =>
      if spaceWidth spaceSeqs s ≠ 0 then ([], s)
      else match runeWidth s with
        | some k =>
          let tr := token fuel (s.drop k)
          (s.take k ++ tr.1, tr.2)
        | none =>
          let tr := token fuel (s.drop 1)
          ([0xEF, 0xBF, 0xBD] ++ tr.1, tr.2)

/-- One `%s` verb of `doScanf`: `SkipSpace`, then `convertString` (`SkipSpace`,
`notEOF`, `token`).  The result is the word and the rest of the input. -/
def scanString (s : Bytes) : Except GoError (Bytes × Bytes) :=
  match SkipSpace s.length s with
  | Except.error e => Except.error e
  | Except.ok s1 =>
    match SkipSpace s1.length s1 with
    | Except.error e => Except.error e
    | Except.ok s2 =>
      if s2 = [] then Except.error GoError.EOF
      else match SkipSpace s2.length s2 with
        | Except.error e => Except.error e
        | Except.ok s3 => Except.ok (token s3.length s3)

/-- `fmt.Sscanf(line, "%s%s%s", &a, &b, &c)`: three words; input left over
after the third word is not looked at.  (The scanner's limit of 2^30 runes
per scan is not modelled.) -/
def Sscanf3 (line : Bytes) : Except GoError (Bytes × Bytes × Bytes) :=
  match scanString line with
  | Except.error e => Except.error e
  | Except.ok (a, r1) =>
    match scanString r1 with
    | Except.error e => Except.error e
    | Except.ok (b, r2) =>
      match scanString r2 with
      | Except.error e => Except.error e
      | Except.ok (c, _) => Except.ok (a, b, c)

/-- `strconv.ParseInt(s, 10, 64)`. -/
def ParseInt (s : Bytes) : Except GoError Int :=
  let neg := s.head? = some 45
  let ds := if s.head? = some 43 ∨ s.head? = some 45 then s.drop 1 else s
  if ds = [] ∨ ¬ ds.all (fun c => 48 ≤ c && c ≤ 57) then
    Except.error (GoError.msg "invalid syntax")
  else
    let v : Nat := ds.foldl (fun acc c => acc * 10 + (c - 48)) 0
    if neg then
      if v > 2 ^ 63 then Except.error (GoError.msg "value out of range")
      else Except.ok (-(v : Int))
    else if v ≥ 2 ^ 63 then Except.error (GoError.msg "value out of range")
    else Except.ok (v : Int)

/-! ## `Request`, `conn` and `readRequest` -/

/-- The fields of `url.URL` the code reads. -/
structure URL where
  Path : Bytes
  RawQuery : Bytes
  deriving DecidableEq, Repr

/-- The values `setupBody` stores in `Request.Body`. -/
inductive Body where
  | nil
  | eofReader
  | LimitReader (n : Int)
  deriving DecidableEq, Repr

/-- The type `conn` (conn.go): `bufr` reads from `lr`, the
`io.LimitedReader` over `rwc`, which is the field `bufr.rd` here; `closed`
records that `rwc.Close()` was called. -/
structure conn where
  bufr : Reader
  RemoteAddr : Bytes
  closed : Bool

/-- The type `Request`.  The field `conn` of the Go struct is a pointer to
the connection; the connection state is passed alongside instead. -/
structure Request where
  Method : Bytes
  URL : URL
  Proto : Bytes
  Header : Header
  Body : Body
  RemoteAddr : Bytes
  RequestURL : Bytes
  cookies : Option (GoMap Bytes)
  queryString : GoMap Bytes

/-- Modelled from the spec: `Header.Get` is declared outside `src/`; the
first value recorded for the name, the empty string when there is none. -/
def Header.Get (h : Header) (key : Bytes) : Bytes := ((h key).getD []).headD []

/-- `(*Request).setupBody`. -/
def Request.setupBody (r : Request) : Request :=
  if r.Method ≠ ascii "POST" ∧ r.Method ≠ ascii "PUT" then { r with Body := Body.eofReader }
  else
    let cl := r.Header.Get (ascii "Content-Length")
    if cl ≠ [] then
      match ParseInt cl with
      | Except.error _ => { r with Body := Body.eofReader }
      | Except.ok contentLength => { r with Body := Body.LimitReader contentLength }
    else { r with Body := Body.eofReader }

/-- `(*Request).Query`. -/
def Request.Query (r : Request) (name : Bytes) : Bytes := r.queryString.index name

/-- The constant `noLimit` of `readRequest`. -/
def noLimit : Int := 2 ^ 63 - 1

/-- `readRequest(c)`; `ParseRequestURI` stands for `url.ParseRequestURI`. -/
def readRequest (ParseRequestURI : Bytes → Except GoError URL) (fuel : Nat) (c : conn) :
    Option (Except GoError Request × conn) :=
  match readLine fuel c.bufr with
  | none => none
  | some ((line, err), b1) =>
    if err ≠ none then some (Except.error (GoError.msg "readLine error"), { c with bufr := b1 })
    else
      match Sscanf3 line with
      | Except.error _ => some (Except.error (GoError.msg "Sccanf err"), { c with bufr := b1 })
      | Except.ok (method, requestURL, proto) =>
        match ParseRequestURI requestURL with
        | Except.error _ =>
          some (Except.error (GoError.msg "ParseURL error"), { c with bufr := b1 })
        | Except.ok url =>
          match readHeader fuel b1 with
          | none => none
          | some (Except.error _, b2) =>
            some (Except.error (GoError.msg "read header err "), { c with bufr := b2 })
          | some (Except.ok header, b2) =>
            let r : Request :=
              { Method := method, URL := url, Proto := proto, Header := header,
                Body := Body.nil, RemoteAddr := c.RemoteAddr, RequestURL := requestURL,
                cookies := none, queryString := parseQuery url.RawQuery }
            some (Except.ok r.setupBody,
                  { c with bufr := { b2 with rd := { b2.rd with N := noLimit } } })

/-- `newConn(rwc, svr)`: a 1 MiB header budget and a 4 KiB buffered reader. -/
def newConn (rwc : Conn) (remoteAddr : Bytes) : conn :=
  { bufr := NewReaderSize { R := rwc, N := 2 ^ 20 } (4 * 2 ^ 10), RemoteAddr := remoteAddr,
    closed := false }

/-! ## Reading the body -/

/-- `(*bufio.Reader).Read(p)` with `len(p) = k`: the bytes copied into `p`,
the error, and the reader afterwards. -/
def Reader.Read (b : Reader) (k : Nat) : (Bytes × Option GoError) × Reader :=
  if k = 0 then
    if b.w - b.r > 0 then (([], none), b)
    else (([], b.err), { b with err := none })
  else if b.r = b.w then
    match b.err with
    | some e => (([], some e), { b with err := none })
    | none =>
      if k ≥ b.buf.length then
        let res := b.rd.Read k
        (res.1, { b with rd := res.2, err := none })
      else
        let res := b.rd.Read b.buf.length
        let d := res.1.1
        let b1 : Reader :=
          { b with r := 0, w := 0, rd := res.2, buf := d ++ b.buf.drop d.length,
                   err := res.1.2 }
        if d.length = 0 then (([], b1.err), { b1 with err := none })
        else
          let b2 : Reader := { b1 with w := d.length }
          let n := min k (b2.w - b2.r)
          ((((b2.buf.take b2.w).drop b2.r).take n, none), { b2 with r := b2.r + n })
  else
    let n := min k (b.w - b.r)
    ((((b.buf.take b.w).drop b.r).take n, none), { b with r := b.r + n })

/-- `r.Body.Read(p)` with `len(p) = k` on connection `c`: the bytes, the
error, the body afterwards (an `io.LimitedReader` counts down) and the
connection afterwards.  Reading the `nil` body, which `setupBody` never
leaves, is a run-time fault. -/
def Body.Read (body : Body) (c : conn) (k : Nat) : (Bytes × Option GoError) × Body × conn :=
  match body with
  | Body.nil => (([], some (GoError.msg "nil pointer dereference")), body, c)
  | Body.eofReader => (([], some GoError.EOF), body, c)
  | Body.LimitReader n =>
    if n ≤ 0 then (([], some GoError.EOF), body, c)
    else
      let k1 := if (k : Int) > n then n.toNat else k
      let res := c.bufr.Read k1
      (res.1, Body.LimitReader (n - (res.1.1.length : Int)), { c with bufr := res.2 })

/-! ## Cookies (request.go) -/

/-- The body of the inner loop of `parseCookies` for one piece `kvs[i]`. -/
def cookieStep (cookies : GoMap Bytes) (kv : Bytes) : GoMap Bytes :=
  match IndexByte kv 61 with
  | none => cookies
  | some index => cookies.set (TrimSpace (kv.take index)) (TrimSpace (kv.drop (index + 1)))

/-- The body of the outer loop of `parseCookies` for one value of the
`Cookie` header. -/
def cookieLine (cookies : GoMap Bytes) (line : Bytes) : GoMap Bytes :=
  let kvs := Split (TrimSpace line) 59
  if kvs.length = 1 ∧ kvs.head? = some [] then cookies
  else kvs.foldl cookieStep cookies

/-- `(*Request).parseCookies`; the `nil` map is `none`. -/
def Request.parseCookies (r : Request) : Request :=
  match r.cookies with
  | some _ => r
  | none =>
    match r.Header (ascii "Cookie") with
    | none => { r with cookies := some GoMap.empty }
    | some rawCookies => { r with cookies := some (rawCookies.foldl cookieLine GoMap.empty) }

/-- `(*Request).Cookie`: the value and the Request afterwards. -/
def Request.Cookie (r : Request) (name : Bytes) : Bytes × Request :=
  let r1 :=
    match r.cookies with
    | none => r.parseCookies
    | some _ => r
  (match r1.cookies with
   | some m => m.index name
   | none => [], r1)

/-! ## `conn.serve` (conn.go) -/

/-- What `serve` does on a connection besides reading from it, in order. -/
inductive Event where
  /-- `readRequest(c)` is called; `N` is the byte budget `lr.N` at that moment. -/
  | parse (N : Int)
  /-- `readRequest` returned the error, `handleErr(err, c)`. -/
  | parseFailed (e : GoError)
  /-- `c.svr.Handler.ServeHTTP(res, req)` is called for the request. -/
  | handled (method target : Bytes)
  /-- `c.bufw.Flush()` returned `nil`. -/
  | flushed
  /-- `c.bufw.Flush()` returned an error. -/
  | flushFailed
  /-- The deferred function caught a panic with `recover()`. -/
  | recovered
  /-- `c.close()`. -/
  | closed
  deriving DecidableEq, Repr

/-- The collaborators of `serve` that lie outside `src/`.  `ServeHTTP` stands
for the lines from `fmt.Println(req)` to the return of the handler: it gives
the connection as the handler leaves it and tells whether a panic was raised.
`FlushFails i` tells whether the `i`-th `c.bufw.Flush()` returns an error. -/
structure Server where
  ServeHTTP : Request → conn → conn × Bool
  FlushFails : Nat → Bool

/-- The loop of `serve`, left by `return` or by a panic: whether a panic is
in flight, the connection, and the events so far. -/
def serveLoop (ParseRequestURI : Bytes → Except GoError URL) (svr : Server) (fuel : Nat)
    (i : Nat) (c : conn) (log : List Event) : Option (Bool × conn × List Event) :=
  match fuel with
  | 0 => none
  | fuel + 1 =>
    match readRequest ParseRequestURI (fuel + 1) c with
    | none => none
    | some (Except.error e, c1) =>
      some (false, c1, log ++ [Event.parse c.bufr.rd.N, Event.parseFailed e])
    | some (Except.ok req, c1) =>
      let out := svr.ServeHTTP req c1
      if out.2 then
        some (true, out.1,
          log ++ [Event.parse c.bufr.rd.N, Event.handled req.Method req.RequestURL])
      else if svr.FlushFails i then
        some (false, out.1,
          log ++ [Event.parse c.bufr.rd.N, Event.handled req.Method req.RequestURL,
                  Event.flushFailed])
      else
        serveLoop ParseRequestURI svr fuel (i + 1) out.1
          (log ++ [Event.parse c.bufr.rd.N, Event.handled req.Method req.RequestURL,
                   Event.flushed])

/-- How a call of `serve` ended: the connection, the events, and whether a
panic left `serve`. -/
structure ServeResult where
  c : conn
  log : List Event
  panicOut : Bool

/-- `(*conn).serve`: the loop, then the deferred function, which recovers a
panic in flight and closes the connection. -/
def serve (ParseRequestURI : Bytes → Except GoError URL) (svr : Server) (fuel : Nat)
    (c : conn) : Option ServeResult :=
  match serveLoop ParseRequestURI svr fuel 0 c [] with
  | none => none
  | some (panicking, c1, log) =>
    some { c := { c1 with closed := true },
           log := log ++ (if panicking then [Event.recovered] else []) ++ [Event.closed],
           panicOut := false }

/-! ## Specification vocabulary -/

/-- The reader delivers the lines `lines`: starting in state `b`, successive
calls of `readLine` return them one by one, each without error; the result
is the reader state after the last of them. -/
def deliver (f : Nat) (b : Reader) (lines : List Bytes) : Option Reader :=
  match lines with
  | [] => some b
  | l :: ls =>
    match readLine f b with
    | some ((got, none), b1) => if got = l then deliver f b1 ls else none
    | _ => none

/-- What the body of the loop of `readHeader` does with one non-empty line. -/
def headerStep (header : Header) (line : Bytes) : Except GoError Header :=
  match IndexByte line 58 with
  | none => Except.error (GoError.msg "unsupported protocol")
  | some i =>
    if i + 1 = line.length then Except.ok header
    else Except.ok (header.set (line.take i)
      (header.index (line.take i) ++ [TrimSpace (line.drop (i + 1))]))

/-- The loop body of `readHeader` run over a list of non-empty lines. -/
def headerFold (header : Header) (lines : List Bytes) : Except GoError Header :=
  match lines with
  | [] => Except.ok header
  | l :: ls =>
    match headerStep header l with
    | Except.error e => Except.error e
    | Except.ok h1 => headerFold h1 ls

/-- The text of a header line before its first colon. -/
def lineName (l : Bytes) : Bytes :=
  match IndexByte l 58 with
  | some i => l.take i
  | none => l

/-- The white-space-trimmed text of a header line after its first colon. -/
def lineValue (l : Bytes) : Bytes :=
  match IndexByte l 58 with
  | some i => TrimSpace (l.drop (i + 1))
  | none => []

/-- The values, in line order, of the lines named `n`. -/
def valuesOf (lines : List Bytes) (n : Bytes) : List Bytes :=
  (lines.filter (fun l => lineName l = n)).map lineValue

/-- A header line with a colon whose first colon is not its last character. -/
def wellFormedLine (l : Bytes) : Bool :=
  match IndexByte l 58 with
  | some i => i + 1 ≠ l.length
  | none => false

/-- The mapping that holds, for every name, the values of its lines in order;
a name that is on no line has no entry. -/
def tally (lines : List Bytes) : Header :=
  fun n => if valuesOf lines n = [] then none else some (valuesOf lines n)

/-- The value sequence a result of `readHeader` holds for the name `n`;
`none` when `readHeader` gave an error or no result. -/
def resultValues (x : Option (Except GoError Header × Reader)) (n : Bytes) :
    Option (List Bytes) :=
  match x with
  | some (Except.ok h, _) => some (h.index n)
  | _ => none

/-- The error of a result of `readHeader`, if it is one. -/
def resultError (x : Option (Except GoError Header × Reader)) : Option GoError :=
  match x with
  | some (Except.error e, _) => some e
  | _ => none

/-- The first white-space-separated field of `s` (which does not start with
white space) and the rest of `s` after it.  A field is a run of runes none of
which is white space; a byte that is not valid UTF-8 counts as one rune. -/
def firstField (fuel : Nat) (s : Bytes) : Bytes × Bytes :=
  match fuel with
  | 0 => ([], s)
  | fuel + 1 =>
    match s with
    | [] => ([], [])
    | _ :: _ =>
      if spaceWidth spaceSeqs s ≠ 0 then ([], s)
      else
        let k := (runeWidth s).getD 1
        let fr := firstField fuel (s.drop k)
        (s.take k ++ fr.1, fr.2)

/-- The fields of `s`, split around runs of white space (as `strings.Fields`). -/
def Fields (fuel : Nat) (s : Bytes) : List Bytes :=
  match fuel with
  | 0 => []
  | fuel + 1 =>
    let s1 := stripSpace spaceSeqs s.length s
    if s1 = [] then []
    else
      let fr := firstField s1.length s1
      fr.1 :: Fields fuel fr.2

/-- A token: valid UTF-8 text that contains no white space. -/
def validWord (fuel : Nat) (w : Bytes) : Bool :=
  match fuel, w with
  | _, [] => true
  | 0, _ :: _ => false
  | fuel + 1, c :: t =>
    spaceWidth spaceSeqs (c :: t) = 0 &&
      match runeWidth (c :: t) with
      | some k => validWord fuel ((c :: t).drop k)
      | none => false

/-- Method, target and version of a result of `readRequest`. -/
def requestLineOf (x : Option (Except GoError Request × conn)) : Option (Bytes × Bytes × Bytes) :=
  match x with
  | some (Except.ok r, _) => some (r.Method, r.RequestURL, r.Proto)
  | _ => none

/-- The error of a result of `readRequest`, if it is one. -/
def requestError (x : Option (Except GoError Request × conn)) : Option GoError :=
  match x with
  | some (Except.error e, _) => some e
  | _ => none

/-- A stand-in for `url.ParseRequestURI` on origin-form targets: a target that
starts with `/` is split at its first `?` into path and raw query. -/
def parseOriginForm (target : Bytes) : Except GoError URL :=
  match target with
  | 47 :: _ =>
    match IndexByte target 63 with
    | some i => Except.ok { Path := target.take i, RawQuery := target.drop (i + 1) }
    | none => Except.ok { Path := target, RawQuery := [] }
  | _ => Except.error (GoError.msg "invalid URI for request")

/-- A query part with a valid separator: it has a `=`, and its first `=` is
not its last character. -/
def validPair (part : Bytes) : Bool :=
  match IndexByte part 61 with
  | some i => i + 1 ≠ part.length
  | none => false

/-- The white-space-trimmed text of a query part before its first `=`. -/
def pairKey (part : Bytes) : Bytes :=
  match IndexByte part 61 with
  | some i => TrimSpace (part.take i)
  | none => []

/-- The white-space-trimmed text of a query part after its first `=`. -/
def pairValue (part : Bytes) : Bytes :=
  match IndexByte part 61 with
  | some i => TrimSpace (part.drop (i + 1))
  | none => []

/-- The parts joined by the separator byte `sep`. -/
def Join (parts : List Bytes) (sep : Nat) : Bytes :=
  match parts with
  | [] => []
  | [p] => p
  | p :: q :: ps => p ++ sep :: Join (q :: ps) sep

/-- A Request whose query mapping was parsed from the raw query `raw`, as
`readRequest` sets it up; the other fields are empty. -/
def requestWithQuery (raw : Bytes) : Request :=
  { Method := [], URL := { Path := [], RawQuery := raw }, Proto := [], Header := GoMap.empty,
    Body := Body.nil, RemoteAddr := [], RequestURL := [], cookies := none,
    queryString := parseQuery raw }

/-- The value `Query(name)` gives on the Request of a result of `readRequest`. -/
def queryOf (x : Option (Except GoError Request × conn)) (name : Bytes) : Option Bytes :=
  match x with
  | some (Except.ok r, _) => some (r.Query name)
  | _ => none

/-- A cookie piece with a `=`. -/
def hasEq (piece : Bytes) : Bool := (IndexByte piece 61).isSome

/-- The `;`-separated pieces of all values of the `Cookie` header, in order. -/
def cookiePieces (h : Header) : List Bytes :=
  match h (ascii "Cookie") with
  | none => []
  | some lines => lines.flatMap (fun line => Split (TrimSpace line) 59)

/-- A Request as `readRequest` leaves it, cookies not parsed yet, with the
given method and header; the other fields are empty. -/
def requestWith (method : Bytes) (header : Header) : Request :=
  { Method := method, URL := { Path := [], RawQuery := [] }, Proto := [], Header := header,
    Body := Body.nil, RemoteAddr := [], RequestURL := [], cookies := none,
    queryString := GoMap.empty }

/-- The header mapping with the single entry `name: [value]`. -/
def headerOf (name value : Bytes) : Header := GoMap.set GoMap.empty name [value]

/-- Reading a body to its end: one `Read` call per element of `ks`, which
gives the length of the slice passed to it, until a call returns an error.
The result is the bytes read, the error that ended the reading (`none` when
`ks` ran out first), and the body and the connection afterwards. -/
def readBody (ks : List Nat) (body : Body) (c : conn) : (Bytes × Option GoError) × Body × conn :=
  match ks with
  | [] => (([], none), body, c)
  | k :: rest =>
    let res := body.Read c k
    match res.1.2 with
    | some e => ((res.1.1, some e), res.2)
    | none =>
      let out := readBody rest res.2.1 res.2.2
      ((res.1.1 ++ out.1.1, out.1.2), out.2)

/-- The bytes a reader has buffered and not handed out yet. -/
def buffered (b : Reader) : Bytes := (b.buf.take b.w).drop b.r

/-- The input a reader still holds: its buffered bytes, then what the
connection delivers within the budget of the `io.LimitedReader`. -/
def pending (b : Reader) : Bytes := buffered b ++ b.rd.R.flatten.take b.rd.N.toNat

/-- A `bufio.Reader` between two calls: the positions are in range and no
error is pending. -/
def Reader.WF (b : Reader) : Prop := b.r ≤ b.w ∧ b.w ≤ b.buf.length ∧ b.err = none

/-- What reading the body of the request of a result of `readRequest` to its
end gives: the bytes read, the error that ended the reading, and the input
left pending in the connection's reader. -/
def bodyOf (x : Option (Except GoError Request × conn)) (ks : List Nat) :
    Option (Bytes × Option GoError × Bytes) :=
  match x with
  | some (Except.ok r, c) =>
    some ((readBody ks r.Body c).1.1, (readBody ks r.Body c).1.2,
      pending (readBody ks r.Body c).2.2.bufr)
  | _ => none

/-- A server whose handler returns at once, leaving the connection as it is,
and whose flushes succeed. -/
def quietServer : Server :=
  { ServeHTTP := fun _ c => (c, false), FlushFails := fun _ => false }

/-- A server whose handler panics on the request for the target `boom`, and
whose flushes succeed. -/
def faultyServer (boom : Bytes) : Server :=
  { ServeHTTP := fun r c => (c, r.RequestURL = boom), FlushFails := fun _ => false }

/-- A server with a quiet handler whose `i`-th flush fails. -/
def brokenPipeServer (i : Nat) : Server :=
  { ServeHTTP := fun _ c => (c, false), FlushFails := fun j => j = i }

/-- The events, the closed flag and the escaping-panic flag of a result of `serve`. -/
def serveSummary (x : Option ServeResult) : Option (List Event × Bool × Bool) :=
  x.map (fun res => (res.log, res.c.closed, res.panicOut))

/-- A slice lies within the reader's buffer. -/
def Slice.valid (s : Slice) (b : Reader) : Prop :=
  s.off + s.len ≤ b.buf.length ∧ s.len ≤ s.cap ∧ s.off + s.cap ≤ b.buf.length

/-! ## Theorems -/

/-! ### Fuel -/

theorem ReadSliceLoop_succ (fuel : Nat) : ∀ (s : Nat) (b : Reader) (x : (Slice × Option GoError) × Reader),
    ReadSliceLoop fuel s b = some x → ReadSliceLoop (fuel + 1) s b = some x := by
  induction fuel with
  | zero => intro s b x h; simp [ReadSliceLoop] at h
  | succ n ih =>
    intro s b x h
    rw [ReadSliceLoop] at h ⊢
    split at h
    · simpa using h
    · split at h
      · simpa using h
      · split at h
        · rename_i hc
          rw [if_pos hc]; exact h
        · rename_i hc
          rw [if_neg hc]; exact ih _ _ _ h

theorem ReadSliceLoop_mono {f g : Nat} (hfg : f ≤ g) {s : Nat} {b : Reader}
    {x : (Slice × Option GoError) × Reader} (h : ReadSliceLoop f s b = some x) :
    ReadSliceLoop g s b = some x := by
  induction hfg with
  | refl => exact h
  | step _ ih => exact ReadSliceLoop_succ _ _ _ _ ih

theorem ReadLine_mono {f g : Nat} (hfg : f ≤ g) {b : Reader}
    {x : (Slice × Bool × Option GoError) × Reader} (h : ReadLine f b = some x) :
    ReadLine g b = some x := by
  unfold ReadLine ReadSlice at h ⊢
  cases hf : ReadSliceLoop f 0 b with
  | none => simp [hf] at h
  | some y => rw [ReadSliceLoop_mono hfg hf]; rw [hf] at h; exact h

theorem readLineLoop_mono (f : Nat) : ∀ (g : Nat) (_ : f ≤ g) (b : Reader) (p : Buf) (more : Bool)
    (x : (Bytes × Option GoError) × Reader), readLineLoop f b p more = some x →
    readLineLoop g b p more = some x := by
  induction f with
  | zero =>
    intro g _ b p more x h
    cases more with
    | false => cases g <;> simpa [readLineLoop] using h
    | true => simp [readLineLoop] at h
  | succ n ih =>
    intro g hg b p more x h
    obtain ⟨g, rfl⟩ : ∃ k, g = k + 1 := ⟨g - 1, by omega⟩
    cases more with
    | false => simpa [readLineLoop] using h
    | true =>
      simp only [readLineLoop, Bool.true_eq_false, ↓reduceIte] at h ⊢
      cases hr : ReadLine (n + 1) b with
      | none => simp [hr] at h
      | some y =>
        rw [ReadLine_mono (by omega : n + 1 ≤ g + 1) hr]
        rw [hr] at h
        obtain ⟨⟨l, more1, err⟩, b1⟩ := y
        simp only at h ⊢
        split at h
        · rename_i hc
          rw [if_pos hc]; exact h
        · rename_i hc
          rw [if_neg hc]; exact ih g (by omega) _ _ _ _ h

theorem readLine_mono {f g : Nat} (hfg : f ≤ g) {b : Reader}
    {x : (Bytes × Option GoError) × Reader} (h : readLine f b = some x) :
    readLine g b = some x := by
  unfold readLine at h ⊢
  cases hr : ReadLine f b with
  | none => simp [hr] at h
  | some y =>
    rw [ReadLine_mono hfg hr]
    rw [hr] at h
    obtain ⟨⟨p, more, err⟩, b1⟩ := y
    simp only at h ⊢
    split at h
    · rename_i hc
      rw [if_pos hc]; exact h
    · rename_i hc
      rw [if_neg hc]; exact readLineLoop_mono f g hfg _ _ _ _ h

/-! ### `readHeader` over delivered lines -/

theorem readHeaderLoop_step {fuel : Nat} {b b1 : Reader} {line : Bytes} (header : Header)
    (h : readLine (fuel + 1) b = some ((line, none), b1)) (hne : line ≠ []) :
    readHeaderLoop (fuel + 1) b header =
      match headerStep header line with
      | Except.error e => some (Except.error e, b1)
      | Except.ok h1 => readHeaderLoop fuel b1 h1 := by
  rw [readHeaderLoop, h]
  have hl : line.length ≠ 0 := by simpa using hne
  simp only [hl, ↓reduceIte, headerStep]
  cases IndexByte line 58 with
  | none => rfl
  | some i =>
    simp only
    split <;> rfl

theorem readHeaderLoop_end {fuel : Nat} {b b1 : Reader} (header : Header)
    (h : readLine (fuel + 1) b = some (([], none), b1)) :
    readHeaderLoop (fuel + 1) b header = some (Except.ok header, b1) := by
  rw [readHeaderLoop, h]
  simp

theorem deliver_cons {f : Nat} {b b1 : Reader} {l : Bytes} {ls : List Bytes}
    (h : deliver f b (l :: ls) = some b1) :
    ∃ b2, readLine f b = some ((l, none), b2) ∧ deliver f b2 ls = some b1 := by
  rw [deliver] at h
  split at h
  · rename_i got b2 hr
    split at h
    · rename_i hg
      exact ⟨b2, by rw [hr, hg], h⟩
    · simp at h
  · simp at h

/-- Running `readHeader` over delivered non-empty lines. -/
theorem readHeaderLoop_deliver (f0 : Nat) (lines : List Bytes) :
    ∀ (b b1 : Reader) (h0 h1 : Header) (fuel : Nat),
      (∀ l ∈ lines, l ≠ []) → deliver f0 b lines = some b1 →
      headerFold h0 lines = Except.ok h1 → f0 + lines.length ≤ fuel →
      readHeaderLoop fuel b h0 = readHeaderLoop (fuel - lines.length) b1 h1 := by
  induction lines with
  | nil =>
    intro b b1 h0 h1 fuel _ hd hf _
    simp only [deliver, Option.some.injEq] at hd
    simp only [headerFold, Except.ok.injEq] at hf
    simp [hd, hf]
  | cons l ls ih =>
    intro b b1 h0 h1 fuel hne hd hf hfuel
    obtain ⟨b2, hr, hd2⟩ := deliver_cons hd
    obtain ⟨k, rfl⟩ : ∃ k, fuel = k + 1 := ⟨fuel - 1, by simp at hfuel; omega⟩
    have hr1 : readLine (k + 1) b = some ((l, none), b2) :=
      readLine_mono (by simp at hfuel; omega) hr
    rw [readHeaderLoop_step h0 hr1 (hne l (by simp))]
    rw [headerFold] at hf
    cases hs : headerStep h0 l with
    | error e => simp [hs] at hf
    | ok h2 =>
      simp only [hs] at hf ⊢
      rw [ih b2 b1 h2 h1 k (fun x hx => hne x (by simp [hx])) hd2 hf (by simp at hfuel; omega)]
      simp

theorem deliver_append (f : Nat) (xs : List Bytes) :
    ∀ (b b1 : Reader) (ys : List Bytes), deliver f b (xs ++ ys) = some b1 →
      ∃ b2, deliver f b xs = some b2 ∧ deliver f b2 ys = some b1 := by
  induction xs with
  | nil => intro b b1 ys h; exact ⟨b, by simp [deliver], by simpa using h⟩
  | cons x xs ih =>
    intro b b1 ys h
    obtain ⟨b2, hr, hd⟩ := deliver_cons (by simpa using h)
    obtain ⟨b3, h3, h4⟩ := ih b2 b1 ys hd
    refine ⟨b3, ?_, h4⟩
    rw [deliver, hr]
    simpa using h3

theorem valuesOf_append (ps : List Bytes) (l n : Bytes) :
    valuesOf (ps ++ [l]) n = valuesOf ps n ++ (if lineName l = n then [lineValue l] else []) := by
  unfold valuesOf
  rw [List.filter_append, List.map_append]
  by_cases h : lineName l = n <;> simp [List.filter, h]

theorem headerStep_tally (ps : List Bytes) (l : Bytes) (hl : wellFormedLine l = true) :
    headerStep (tally ps) l = Except.ok (tally (ps ++ [l])) := by
  unfold wellFormedLine at hl
  unfold headerStep
  cases hi : IndexByte l 58 with
  | none => simp [hi] at hl
  | some i =>
    simp only [hi, decide_eq_true_eq] at hl
    simp only [if_neg hl]
    congr 1
    funext n
    have hn : lineName l = l.take i := by simp [lineName, hi]
    have hv : lineValue l = TrimSpace (l.drop (i + 1)) := by simp [lineValue, hi]
    simp only [GoMap.set, tally, valuesOf_append, hn, hv, Header.index]
    by_cases h : n = l.take i
    · subst h
      by_cases h2 : valuesOf ps (List.take i l) = [] <;> simp [h2]
    · have h' : ¬ (List.take i l = n) := fun e => h e.symm
      simp [h, h']

theorem headerFold_tally (ls : List Bytes) : ∀ (ps : List Bytes),
    (∀ l ∈ ls, wellFormedLine l = true) →
    headerFold (tally ps) ls = Except.ok (tally (ps ++ ls)) := by
  induction ls with
  | nil => intro ps _; simp [headerFold]
  | cons l ls ih =>
    intro ps h
    rw [headerFold, headerStep_tally ps l (h l (by simp))]
    simp only
    rw [ih (ps ++ [l]) (fun x hx => h x (by simp [hx]))]
    simp

theorem wellFormedLine_ne_nil {l : Bytes} (h : wellFormedLine l = true) : l ≠ [] := by
  intro e; subst e; simp [wellFormedLine, IndexByte] at h

/-- `readHeader` over delivered well-formed lines followed by the empty line. -/
theorem readHeader_tally (f0 : Nat) (b b1 : Reader) (lines : List Bytes)
    (hgood : ∀ l ∈ lines, wellFormedLine l = true)
    (hdel : deliver f0 b (lines ++ [[]]) = some b1)
    (fuel : Nat) (hfuel : f0 + lines.length + 1 ≤ fuel) :
    readHeader fuel b = some (Except.ok (tally lines), b1) := by
  obtain ⟨b2, h2, h3⟩ := deliver_append f0 lines b b1 [[]] hdel
  obtain ⟨b3, hr, h4⟩ := deliver_cons h3
  simp only [deliver, Option.some.injEq] at h4
  subst h4
  have hf := headerFold_tally lines [] hgood
  have ht : tally [] = GoMap.empty := by funext n; simp [tally, valuesOf, GoMap.empty]
  rw [ht, List.nil_append] at hf
  rw [readHeader, readHeaderLoop_deliver f0 lines b b2 _ _ fuel
    (fun l hl => wellFormedLine_ne_nil (hgood l hl)) h2 hf (by omega)]
  obtain ⟨k, hk⟩ : ∃ k, fuel - lines.length = k + 1 := ⟨fuel - lines.length - 1, by omega⟩
  rw [hk]
  exact readHeaderLoop_end _ (readLine_mono (by omega) hr)

/-- The loop of `readHeader` over lines that `readLine` returns intact: when
the reader delivers well-formed lines (each with a colon that is not its last
character) and then the empty line, `readHeader` succeeds, and the mapping
holds for every name exactly the trimmed values of the lines with that name,
in line order; a name on no line has no entry. -/
theorem readHeader_collects (f0 : Nat) (b b1 : Reader) (lines : List Bytes)
    (hgood : ∀ l ∈ lines, wellFormedLine l = true)
    (hdel : deliver f0 b (lines ++ [[]]) = some b1)
    (fuel : Nat) (hfuel : f0 + lines.length + 1 ≤ fuel) :
    ∃ header, readHeader fuel b = some (Except.ok header, b1) ∧
      ∀ n, header n = if valuesOf lines n = [] then none else some (valuesOf lines n) :=
  ⟨tally lines, readHeader_tally f0 b b1 lines hgood hdel fuel hfuel, fun _ => rfl⟩

/-- The loop of `readHeader` at a concrete input: three lines, two of them
named `A`. -/
theorem readHeader_collects_witness :
    ∃ header,
      readHeader 8 (newConn [ascii "Host: x\r\nA: 1\r\nA:2\r\n\r\n"] []).bufr =
        some (Except.ok header,
          (deliver 4 (newConn [ascii "Host: x\r\nA: 1\r\nA:2\r\n\r\n"] []).bufr
            ([ascii "Host: x", ascii "A: 1", ascii "A:2"] ++ [[]])).getD
              (newConn [] []).bufr) ∧
      ∀ n, header n =
        if valuesOf [ascii "Host: x", ascii "A: 1", ascii "A:2"] n = [] then none
        else some (valuesOf [ascii "Host: x", ascii "A: 1", ascii "A:2"] n) :=
  readHeader_collects 4 _ _ [ascii "Host: x", ascii "A: 1", ascii "A:2"]
    (by decide) (by decide!) 8 (by decide)

/-- C1 fails on this input: the block is the one line `K:` followed by 4093
times `v` (a colon that is not its last character), then the empty line, and
`readHeader` on the 4096-byte reader of `newConn` returns the error
"unsupported protocol" and no mapping. -/
theorem readHeader_rejects_long_well_formed_line :
    wellFormedLine (ascii "K:" ++ List.replicate 4093 118) = true ∧
    resultError (readHeader 6 (newConn
      [ascii "K:" ++ List.replicate 4093 118 ++ ascii "\r\n" ++ ascii "\r\n"] []).bufr) =
        some (GoError.msg "unsupported protocol") ∧
    resultValues (readHeader 6 (newConn
      [ascii "K:" ++ List.replicate 4093 118 ++ ascii "\r\n" ++ ascii "\r\n"] []).bufr)
        (ascii "K") = none := by
  decide!

theorem headerFold_exists (pre : List Bytes) : ∀ (h0 : Header),
    (∀ l ∈ pre, IndexByte l 58 ≠ none) → ∃ h1, headerFold h0 pre = Except.ok h1 := by
  induction pre with
  | nil => intro h0 _; exact ⟨h0, rfl⟩
  | cons l ls ih =>
    intro h0 h
    have hl := h l (by simp)
    have hs : ∃ h2, headerStep h0 l = Except.ok h2 := by
      unfold headerStep
      cases hi : IndexByte l 58 with
      | none => exact absurd hi hl
      | some i =>
        simp only
        split <;> exact ⟨_, rfl⟩
    obtain ⟨h2, hs⟩ := hs
    rw [headerFold, hs]
    exact ih h2 (fun x hx => h x (by simp [hx]))

/-- The loop of `readHeader` over lines that `readLine` returns intact: when
the reader delivers non-empty lines that all contain a colon and then a
non-empty line without a colon, `readHeader` returns the error
"unsupported protocol" and no mapping, whatever the lines before it were and
whatever follows it in the stream. -/
theorem readHeader_missing_colon (f0 : Nat) (b b1 : Reader) (pre : List Bytes) (bad : Bytes)
    (hpre : ∀ l ∈ pre, l ≠ [] ∧ IndexByte l 58 ≠ none)
    (hbad : bad ≠ [] ∧ IndexByte bad 58 = none)
    (hdel : deliver f0 b (pre ++ [bad]) = some b1)
    (fuel : Nat) (hfuel : f0 + pre.length + 1 ≤ fuel) :
    readHeader fuel b = some (Except.error (GoError.msg "unsupported protocol"), b1) := by
  obtain ⟨b2, h2, h3⟩ := deliver_append f0 pre b b1 [bad] hdel
  obtain ⟨b3, hr, h4⟩ := deliver_cons h3
  simp only [deliver, Option.some.injEq] at h4
  subst h4
  obtain ⟨h1, hf⟩ := headerFold_exists pre GoMap.empty (fun l hl => (hpre l hl).2)
  rw [readHeader, readHeaderLoop_deliver f0 pre b b2 _ _ fuel
    (fun l hl => (hpre l hl).1) h2 hf (by omega)]
  obtain ⟨k, hk⟩ : ∃ k, fuel - pre.length = k + 1 := ⟨fuel - pre.length - 1, by omega⟩
  rw [hk, readHeaderLoop_step h1 (readLine_mono (by omega) hr) hbad.1]
  simp [headerStep, hbad.2]

/-- The loop of `readHeader` at a concrete input: a line without a colon
between well-formed lines. -/
theorem readHeader_missing_colon_witness :
    readHeader 8 (newConn [ascii "Host: x\r\nA: 1\r\nbroken\r\nB: 2\r\n\r\n"] []).bufr =
      some (Except.error (GoError.msg "unsupported protocol"),
        (deliver 4 (newConn [ascii "Host: x\r\nA: 1\r\nbroken\r\nB: 2\r\n\r\n"] []).bufr
          ([ascii "Host: x", ascii "A: 1"] ++ [ascii "broken"])).getD (newConn [] []).bufr) :=
  readHeader_missing_colon 4 _ _ [ascii "Host: x", ascii "A: 1"] (ascii "broken")
    (by decide) (by decide) (by decide!) 8 (by decide)

/-- C2 fails on this input: the block has the lines `A:` with 4093 times `a`
and a carriage return, `K:` with 4088 times `v`, the line `X` without a
colon, and then the empty line; `readHeader` on the 4096-byte reader of
`newConn` returns a mapping and no error. -/
theorem readHeader_accepts_line_without_colon :
    (ascii "X" ≠ [] ∧ IndexByte (ascii "X") 58 = none) ∧
    resultError (readHeader 6 (newConn
      [ascii "A:" ++ List.replicate 4093 97 ++ ascii "\r" ++ ascii "\r\n" ++
       ascii "K:" ++ List.replicate 4088 118 ++ ascii "\r\n" ++
       ascii "X" ++ ascii "\n" ++ ascii "\r\n"] []).bufr) = none ∧
    resultValues (readHeader 6 (newConn
      [ascii "A:" ++ List.replicate 4093 97 ++ ascii "\r" ++ ascii "\r\n" ++
       ascii "K:" ++ List.replicate 4088 118 ++ ascii "\r\n" ++
       ascii "X" ++ ascii "\n" ++ ascii "\r\n"] []).bufr) (ascii "K") =
        some [List.replicate 4088 118] := by
  decide!

/-- An error of `readLine` ends `readHeader` with that error: when the reader
delivers non-empty lines with a colon and `readLine` then fails (end of
stream included), `readHeader` returns the error and no mapping. -/
theorem readHeader_line_error (f0 : Nat) (b b1 b2 : Reader) (pre : List Bytes) (p : Bytes)
    (e : GoError) (hpre : ∀ l ∈ pre, l ≠ [] ∧ IndexByte l 58 ≠ none)
    (hdel : deliver f0 b pre = some b1)
    (herr : readLine f0 b1 = some ((p, some e), b2))
    (fuel : Nat) (hfuel : f0 + pre.length + 1 ≤ fuel) :
    readHeader fuel b = some (Except.error e, b2) := by
  obtain ⟨h1, hf⟩ := headerFold_exists pre GoMap.empty (fun l hl => (hpre l hl).2)
  rw [readHeader, readHeaderLoop_deliver f0 pre b b1 _ _ fuel
    (fun l hl => (hpre l hl).1) hdel hf (by omega)]
  obtain ⟨k, hk⟩ : ∃ k, fuel - pre.length = k + 1 := ⟨fuel - pre.length - 1, by omega⟩
  rw [hk, readHeaderLoop, readLine_mono (by omega) herr]

theorem headerFold_append (xs : List Bytes) : ∀ (h0 : Header) (ys : List Bytes),
    headerFold h0 (xs ++ ys) =
      match headerFold h0 xs with
      | Except.error e => Except.error e
      | Except.ok h1 => headerFold h1 ys := by
  induction xs with
  | nil => intro h0 ys; simp [headerFold]
  | cons x xs ih =>
    intro h0 ys
    rw [List.cons_append, headerFold, headerFold]
    cases headerStep h0 x with
    | error e => rfl
    | ok h2 => exact ih h2 ys

/-- The result of `readHeader` over delivered non-empty lines followed by the
empty line is the loop body folded over the lines. -/
theorem readHeaderLoop_fold (f0 : Nat) (lines : List Bytes) :
    ∀ (b b1 : Reader) (h0 : Header) (fuel : Nat),
      (∀ l ∈ lines, l ≠ []) → deliver f0 b (lines ++ [[]]) = some b1 →
      f0 + lines.length + 1 ≤ fuel →
      (readHeaderLoop fuel b h0).map Prod.fst = some (headerFold h0 lines) := by
  induction lines with
  | nil =>
    intro b b1 h0 fuel _ hd hfuel
    obtain ⟨b2, hr, _⟩ := deliver_cons (by simpa using hd)
    obtain ⟨k, rfl⟩ : ∃ k, fuel = k + 1 := ⟨fuel - 1, by omega⟩
    rw [readHeaderLoop_end h0 (readLine_mono (by simp at hfuel; omega) hr)]
    rfl
  | cons l ls ih =>
    intro b b1 h0 fuel hne hd hfuel
    obtain ⟨b2, hr, hd2⟩ := deliver_cons (by simpa using hd)
    obtain ⟨k, rfl⟩ : ∃ k, fuel = k + 1 := ⟨fuel - 1, by omega⟩
    rw [readHeaderLoop_step h0 (readLine_mono (by simp at hfuel; omega) hr) (hne l (by simp)),
      headerFold]
    cases headerStep h0 l with
    | error e => rfl
    | ok h2 =>
      exact ih b2 b1 h2 k (fun x hx => hne x (by simp [hx])) hd2 (by simp at hfuel; omega)

/-- C3 as stated fails: the line `a:b:` ends in a colon and is not skipped.
With it the mapping holds the value `b:` for `a`; without it the mapping has
nothing for `a`. -/
theorem readHeader_keeps_line_ending_in_colon :
    (ascii "a:b:").getLast? = some 58 ∧
    deliver 4 (newConn [ascii "a:b:\r\n\r\n"] []).bufr [ascii "a:b:", []] ≠ none ∧
    deliver 4 (newConn [ascii "\r\n"] []).bufr [[]] ≠ none ∧
    resultValues (readHeader 4 (newConn [ascii "a:b:\r\n\r\n"] []).bufr) (ascii "a")
      = some [ascii "b:"] ∧
    resultValues (readHeader 4 (newConn [ascii "\r\n"] []).bufr) (ascii "a") = some [] := by
  decide!

/-- C3, amended. A line whose first colon is its last character is skipped
without error: when one reader delivers a block of lines with such a line in
it and another delivers the same block without that line, `readHeader`
returns the same result (mapping or error) for both. -/
theorem readHeader_skips_bare_name (f0 : Nat) (b b1 c c1 : Reader) (pre post : List Bytes)
    (l : Bytes) (hl : ∃ i, IndexByte l 58 = some i ∧ i + 1 = l.length)
    (hne : ∀ x ∈ pre ++ post, x ≠ [])
    (hb : deliver f0 b (pre ++ [l] ++ post ++ [[]]) = some b1)
    (hc : deliver f0 c (pre ++ post ++ [[]]) = some c1)
    (fuel : Nat) (hfuel : f0 + pre.length + post.length + 2 ≤ fuel) :
    (readHeader fuel b).map Prod.fst = (readHeader fuel c).map Prod.fst ∧
      (readHeader fuel b).map Prod.fst = some (headerFold GoMap.empty (pre ++ post)) := by
  obtain ⟨i, hi, hlast⟩ := hl
  have hlne : l ≠ [] := by
    intro e; subst e; simp [IndexByte] at hi
  have hstep : ∀ h : Header, headerStep h l = Except.ok h := by
    intro h; simp [headerStep, hi, hlast]
  have h1 := readHeaderLoop_fold f0 (pre ++ [l] ++ post) b b1 GoMap.empty fuel
    (by
      intro x hx
      simp only [List.append_assoc, List.mem_append, List.mem_singleton, List.mem_cons,
        List.not_mem_nil, or_false] at hx
      rcases hx with hx | hx | hx
      · exact hne x (by simp [hx])
      · exact hx ▸ hlne
      · exact hne x (by simp [hx]))
    hb (by simp; omega)
  have h2 := readHeaderLoop_fold f0 (pre ++ post) c c1 GoMap.empty fuel hne hc
    (by simp; omega)
  have e : headerFold GoMap.empty (pre ++ [l] ++ post) = headerFold GoMap.empty (pre ++ post) := by
    rw [List.append_assoc, headerFold_append, headerFold_append]
    cases headerFold GoMap.empty pre with
    | error e => rfl
    | ok h3 => simp [headerFold, hstep]
  rw [readHeader, readHeader, h1, h2, e]
  exact ⟨rfl, rfl⟩

/-- C3 amended, at a concrete input: the line `B:` between two other lines. -/
theorem readHeader_skips_bare_name_witness :
    (readHeader 8 (newConn [ascii "A: 1\r\nB:\r\nC: 3\r\n\r\n"] []).bufr).map Prod.fst =
        (readHeader 8 (newConn [ascii "A: 1\r\nC: 3\r\n\r\n"] []).bufr).map Prod.fst ∧
      (readHeader 8 (newConn [ascii "A: 1\r\nB:\r\nC: 3\r\n\r\n"] []).bufr).map Prod.fst =
        some (headerFold GoMap.empty ([ascii "A: 1"] ++ [ascii "C: 3"])) :=
  readHeader_skips_bare_name 4 _
    ((deliver 4 (newConn [ascii "A: 1\r\nB:\r\nC: 3\r\n\r\n"] []).bufr
      ([ascii "A: 1"] ++ [ascii "B:"] ++ [ascii "C: 3"] ++ [[]])).getD (newConn [] []).bufr)
    _
    ((deliver 4 (newConn [ascii "A: 1\r\nC: 3\r\n\r\n"] []).bufr
      ([ascii "A: 1"] ++ [ascii "C: 3"] ++ [[]])).getD (newConn [] []).bufr)
    [ascii "A: 1"] [ascii "C: 3"] (ascii "B:") ⟨1, by decide, by decide⟩ (by decide)
    (by decide!) (by decide!) 8 (by decide)

/-! ### `readLine` on lines longer than the buffer -/

/-- C4 fails on this input. The stream holds the three lines `A:a...a\r`
(4096 bytes), `K:v...v` and `X`, each ended by a line break, and then ends:
no empty line is ever sent.  The first line fills the buffer and ends in a
carriage return, so `readLine` keeps a view of 4095 bytes with one byte of
capacity left; the next fragment is the single carriage return, and `append`
writes it in place over the unread byte `X` in the reader's buffer.  The
stream then reads as `\r\n`, an empty line, and `readHeader` succeeds. -/
theorem readHeader_succeeds_without_empty_line :
    resultError (readHeader 6 (newConn
      [ascii "A:" ++ List.replicate 4093 97 ++ ascii "\r" ++ ascii "\r\n" ++
       ascii "K:" ++ List.replicate 4088 118 ++ ascii "\r\n" ++
       ascii "X" ++ ascii "\n"] []).bufr) = none ∧
    resultValues (readHeader 6 (newConn
      [ascii "A:" ++ List.replicate 4093 97 ++ ascii "\r" ++ ascii "\r\n" ++
       ascii "K:" ++ List.replicate 4088 118 ++ ascii "\r\n" ++
       ascii "X" ++ ascii "\n"] []).bufr) (ascii "K") = some [List.replicate 4088 118] := by
  decide!

/-- C5 fails on this input. A line of 4097 bytes (4096 times `a`, then `b`)
read through the 4096-byte reader of `newConn` comes back as `b`, the line
break, 4093 times `a` and `b`: the first fragment is a view of the reader's
buffer, which the second `ReadLine` call overwrites before `append` copies
it.  A reader of 8192 bytes returns the line as sent. -/
theorem readLine_long_line_garbled :
    (readLine 4 (newConn [List.replicate 4096 97 ++ ascii "b\r\n"] []).bufr).map Prod.fst =
      some (ascii "b\r\n" ++ List.replicate 4093 97 ++ ascii "b", none) ∧
    (readLine 4 (NewReaderSize { R := [List.replicate 4096 97 ++ ascii "b\r\n"], N := 2 ^ 20 }
      8192)).map Prod.fst = some (List.replicate 4096 97 ++ ascii "b", none) := by
  decide!

/-- C6 fails on this input. The stream ends after exactly 4096 bytes without a
line break: the first `ReadLine` returns them with `isPrefix` set, the second
fails with `io.EOF`, and `readLine` returns the 4096 bytes with a `nil` error. -/
theorem readLine_swallows_error :
    (ReadLine 4 (newConn [List.replicate 4096 97] []).bufr).map (fun x => x.1.2) =
      some (true, none) ∧
    ((ReadLine 4 (newConn [List.replicate 4096 97] []).bufr).bind
      (fun x => ReadLine 4 x.2)).map (fun x => x.1.2) = some (false, some GoError.EOF) ∧
    (readLine 4 (newConn [List.replicate 4096 97] []).bufr).map Prod.fst =
      some (List.replicate 4096 97, none) := by
  decide!

/-! ### `fmt.Sscanf` and the request line -/

theorem stripSpace_length_le (tbl : List Bytes) (f : Nat) : ∀ s : Bytes,
    (stripSpace tbl f s).length ≤ s.length := by
  induction f with
  | zero => intro s; simp [stripSpace]
  | succ n ih =>
    intro s
    rw [stripSpace]
    split
    · exact le_refl _
    · exact le_trans (ih _) (by simp)

theorem stripSpace_of_width_zero (tbl : List Bytes) (f : Nat) (s : Bytes)
    (h : spaceWidth tbl s = 0) : stripSpace tbl f s = s := by
  cases f with
  | zero => rfl
  | succ n => rw [stripSpace, h]

theorem spaceWidth_nil (tbl : List Bytes) : spaceWidth tbl [] = 0 := rfl

theorem stripSpace_done (tbl : List Bytes) (f : Nat) : ∀ s : Bytes, s.length ≤ f →
    spaceWidth tbl (stripSpace tbl f s) = 0 := by
  induction f with
  | zero =>
    intro s h
    have : s = [] := by simpa using h
    subst this; rfl
  | succ n ih =>
    intro s h
    rw [stripSpace]
    split
    · assumption
    · rename_i k hk
      apply ih
      cases s with
      | nil => simp [spaceWidth] at hk
      | cons c t => simp at h ⊢; omega

theorem SkipSpace_eq_strip (f : Nat) : ∀ (s s1 : Bytes), SkipSpace f s = Except.ok s1 →
    stripSpace spaceSeqs f s = s1 := by
  induction f with
  | zero => intro s s1 h; simpa [SkipSpace, stripSpace] using h
  | succ n ih =>
    intro s s1 h
    cases s with
    | nil =>
      simp only [SkipSpace, Except.ok.injEq] at h
      subst h; rfl
    | cons c t =>
      simp only [SkipSpace] at h
      rw [stripSpace]
      split at h
      · simp at h
      · split at h
        · simpa using h
        · exact ih _ _ h

theorem SkipSpace_fixed {s s1 : Bytes} (hw : spaceWidth spaceSeqs s = 0)
    (h : SkipSpace s.length s = Except.ok s1) : s1 = s := by
  rw [← SkipSpace_eq_strip _ _ _ h, stripSpace_of_width_zero _ _ _ hw]

/-- What a successful `%s` scan did: it skipped the leading white space and
read one token from what was left. -/
theorem scanString_ok {s t r : Bytes} (h : scanString s = Except.ok (t, r)) :
    stripSpace spaceSeqs s.length s ≠ [] ∧
      token (stripSpace spaceSeqs s.length s).length (stripSpace spaceSeqs s.length s) = (t, r) := by
  unfold scanString at h
  cases h1 : SkipSpace s.length s with
  | error e => simp [h1] at h
  | ok s1 =>
    have e1 := SkipSpace_eq_strip _ _ _ h1
    have w1 : spaceWidth spaceSeqs s1 = 0 := e1 ▸ stripSpace_done _ _ _ (le_refl _)
    simp only [h1] at h
    cases h2 : SkipSpace s1.length s1 with
    | error e => simp [h2] at h
    | ok s2 =>
      have e2 := SkipSpace_fixed w1 h2
      subst e2
      simp only [h2] at h
      split at h
      · simp at h
      · rename_i hne
        simp only [Except.ok.injEq] at h
        rw [e1]
        exact ⟨hne, h⟩

theorem token_rest (f : Nat) : ∀ s : Bytes, (token f s).2 = (firstField f s).2 := by
  induction f with
  | zero => intro s; rfl
  | succ n ih =>
    intro s
    cases s with
    | nil => rfl
    | cons c t =>
      simp only [token, firstField]
      split
      · rfl
      · cases hr : runeWidth (c :: t) with
        | none => simp [ih]
        | some k => simp [ih]

theorem firstField_rest_le (f : Nat) : ∀ s : Bytes, (firstField f s).2.length ≤ s.length := by
  induction f with
  | zero => intro s; simp [firstField]
  | succ n ih =>
    intro s
    cases s with
    | nil => simp [firstField]
    | cons c t =>
      simp only [firstField]
      split
      · simp
      · exact le_trans (ih _) (by simp)

theorem runeWidth_pos {s : Bytes} {k : Nat} (h : runeWidth s = some k) : 1 ≤ k := by
  unfold runeWidth at h
  repeat' split at h
  all_goals (simp at h <;> omega)

theorem firstField_rest_lt {f : Nat} {s : Bytes} (hf : 1 ≤ f) (hne : s ≠ [])
    (hw : spaceWidth spaceSeqs s = 0) : (firstField f s).2.length < s.length := by
  obtain ⟨n, rfl⟩ : ∃ n, f = n + 1 := ⟨f - 1, by omega⟩
  cases s with
  | nil => exact absurd rfl hne
  | cons c t =>
    simp only [firstField, hw, ne_eq, not_true_eq_false, ↓reduceIte]
    have hk : 1 ≤ (runeWidth (c :: t)).getD 1 := by
      cases hr : runeWidth (c :: t) with
      | none => simp
      | some k => simpa using runeWidth_pos hr
    refine lt_of_le_of_lt (firstField_rest_le _ _) ?_
    simp only [List.length_drop, List.length_cons]
    omega

theorem runeWidth_append {w : Bytes} {k : Nat} (rest : Bytes) (h : runeWidth w = some k) :
    runeWidth (w ++ rest) = some k := by
  rcases w with _ | ⟨c0, _ | ⟨c1, _ | ⟨c2, _ | ⟨c3, t⟩⟩⟩⟩
  · simp [runeWidth] at h
  all_goals
    simp only [runeWidth] at h
    simp only [List.cons_append, List.nil_append, runeWidth]
    repeat' split at h
    all_goals try (exfalso; simp at h; done)
    all_goals try (simp only [*, ↓reduceIte]; done)
    all_goals try cases rest
    all_goals try simp_all
    all_goals try (split_ifs <;> first | rfl | omega)

theorem runeWidth_le {w : Bytes} {k : Nat} (h : runeWidth w = some k) : k ≤ w.length := by
  rcases w with _ | ⟨c0, _ | ⟨c1, _ | ⟨c2, _ | ⟨c3, t⟩⟩⟩⟩
  · simp [runeWidth] at h
  all_goals
    simp only [runeWidth] at h
    repeat' split at h
    all_goals (simp at h ⊢ <;> omega)

theorem spaceWidth_append {w : Bytes} {k : Nat} (rest : Bytes)
    (hw : spaceWidth spaceSeqs w = 0) (h : runeWidth w = some k) :
    spaceWidth spaceSeqs (w ++ rest) = 0 := by
  rcases w with _ | ⟨c0, _ | ⟨c1, _ | ⟨c2, t⟩⟩⟩
  · simp [runeWidth] at h
  · -- one byte: it is ASCII
    have h0 : c0 < 128 := by
      simp only [runeWidth] at h
      split at h
      · assumption
      · repeat' split at h
        all_goals simp at h
    simp only [spaceWidth] at hw ⊢
    simp only [List.cons_append, List.nil_append]
    split at hw
    · simp at hw
    · rename_i ha
      simp only [ha, Bool.false_eq_true, ↓reduceIte]
      have : List.find? (fun q => q.isPrefixOf (c0 :: rest)) spaceSeqs = none := by
        simp only [spaceSeqs, List.find?, List.isPrefixOf]
        have e1 : (194 == c0) = false := by simp; omega
        have e2 : (225 == c0) = false := by simp; omega
        have e3 : (226 == c0) = false := by simp; omega
        have e4 : (227 == c0) = false := by simp; omega
        simp [e1, e2, e3, e4]
      rw [this]
  · -- two bytes
    have h0 : c0 < 128 ∨ (194 ≤ c0 ∧ c0 ≤ 223) := by
      simp only [runeWidth] at h
      repeat' split at h
      all_goals simp_all
    simp only [spaceWidth] at hw ⊢
    simp only [List.cons_append, List.nil_append]
    split at hw
    · simp at hw
    · rename_i ha
      simp only [ha, Bool.false_eq_true, ↓reduceIte]
      simp only [spaceSeqs, List.find?, List.isPrefixOf] at hw ⊢
      have e2 : (225 == c0) = false := by simp; omega
      have e3 : (226 == c0) = false := by simp; omega
      have e4 : (227 == c0) = false := by simp; omega
      simp only [e2, e3, e4, Bool.false_and, Bool.and_true] at hw ⊢
      exact hw
  · simp only [spaceWidth] at hw ⊢
    simp only [List.cons_append, List.nil_append]
    split at hw
    · simp at hw
    · rename_i ha
      simp only [ha, Bool.false_eq_true, ↓reduceIte]
      simp only [spaceSeqs, List.find?, List.isPrefixOf] at hw ⊢
      exact hw

/-- A token followed by the end of the line or by white space is read back
as it stands. -/
theorem token_word (f : Nat) : ∀ (w rest : Bytes) (g : Nat),
    validWord f w = true → (rest = [] ∨ spaceWidth spaceSeqs rest ≠ 0) →
    (w ++ rest).length ≤ g → token g (w ++ rest) = (w, rest) := by
  induction f with
  | zero =>
    intro w rest g hv hrest hg
    cases w with
    | cons c t => simp [validWord] at hv
    | nil =>
      cases g with
      | zero =>
        have : rest = [] := by simpa using hg
        subst this; rfl
      | succ n =>
        cases rest with
        | nil => rfl
        | cons c t =>
          rcases hrest with h | h
          · simp at h
          · simp only [List.nil_append, token, h, ne_eq, not_false_eq_true, ↓reduceIte]
  | succ n ih =>
    intro w rest g hv hrest hg
    cases w with
    | nil =>
      cases g with
      | zero =>
        have : rest = [] := by simpa using hg
        subst this; rfl
      | succ m =>
        cases rest with
        | nil => rfl
        | cons c t =>
          rcases hrest with h | h
          · simp at h
          · simp only [List.nil_append, token, h, ne_eq, not_false_eq_true, ↓reduceIte]
    | cons c t =>
      simp only [validWord, Bool.and_eq_true, decide_eq_true_eq] at hv
      obtain ⟨hsp, hv2⟩ := hv
      cases hr : runeWidth (c :: t) with
      | none => simp [hr] at hv2
      | some k =>
        simp only [hr] at hv2
        obtain ⟨m, rfl⟩ : ∃ m, g = m + 1 := ⟨g - 1, by simp at hg; omega⟩
        have hk1 := runeWidth_pos hr
        have hk2 := runeWidth_le hr
        have e1 : spaceWidth spaceSeqs (c :: (t ++ rest)) = 0 := spaceWidth_append rest hsp hr
        have e2 : runeWidth (c :: (t ++ rest)) = some k := runeWidth_append rest hr
        have e3 : List.drop k (c :: (t ++ rest)) = List.drop k (c :: t) ++ rest := by
          rw [← List.cons_append, List.drop_append_of_le_length hk2]
        have e4 : List.take k (c :: (t ++ rest)) = List.take k (c :: t) := by
          rw [← List.cons_append, List.take_append_of_le_length hk2]
        simp only [List.cons_append, token, e1, ne_eq, not_true_eq_false, ↓reduceIte, e2]
        rw [e3, e4, ih (List.drop k (c :: t)) rest m hv2 hrest
          (by simp only [List.length_append, List.length_drop, List.length_cons] at hg ⊢; omega)]
        simp only [List.take_append_drop]

theorem validWord_head {w : Bytes} (hne : w ≠ []) (hv : validWord w.length w = true) :
    spaceWidth spaceSeqs w = 0 ∧ ∃ k, runeWidth w = some k := by
  cases w with
  | nil => exact absurd rfl hne
  | cons c t =>
    simp only [List.length_cons, validWord, Bool.and_eq_true, decide_eq_true_eq] at hv
    refine ⟨hv.1, ?_⟩
    cases hr : runeWidth (c :: t) with
    | none => simp [hr] at hv
    | some k => exact ⟨k, rfl⟩

theorem asciiSpace_of_newline {s : Bytes} : spaceWidth spaceSeqs (10 :: s) ≠ 0 := by
  simp [spaceWidth, asciiSpace]

/-- `SkipSpace` stops at once in front of a token. -/
theorem SkipSpace_word {w : Bytes} (rest : Bytes) (hne : w ≠ [])
    (hv : validWord w.length w = true) (n : Nat) :
    SkipSpace (n + 1) (w ++ rest) = Except.ok (w ++ rest) := by
  obtain ⟨hsp, k, hk⟩ := validWord_head hne hv
  have e1 := spaceWidth_append rest hsp hk
  cases w with
  | nil => exact absurd rfl hne
  | cons c t =>
    have hc : c ≠ 10 := by
      intro e; subst e
      exact asciiSpace_of_newline hsp
    simp only [List.cons_append] at e1 ⊢
    simp only [SkipSpace, hc, ↓reduceIte, e1]

/-- One `%s` on a token followed by the end of the line or by white space. -/
theorem scanString_word {w : Bytes} (rest : Bytes) (hne : w ≠ [])
    (hv : validWord w.length w = true) (hrest : rest = [] ∨ spaceWidth spaceSeqs rest ≠ 0) :
    scanString (w ++ rest) = Except.ok (w, rest) := by
  have hl : ∃ n, (w ++ rest).length = n + 1 := by
    cases w with
    | nil => exact absurd rfl hne
    | cons c t => exact ⟨(t ++ rest).length, by simp⟩
  obtain ⟨n, hn⟩ := hl
  have hnil : w ++ rest ≠ [] := by
    intro e; rw [e] at hn; simp at hn
  unfold scanString
  simp only [hn, SkipSpace_word rest hne hv n, hnil, ↓reduceIte]
  rw [← hn, token_word w.length w rest _ hv hrest (le_refl _)]

/-- One `%s` on a blank, a token and then the end of the line or white space. -/
theorem scanString_blank_word {w : Bytes} (rest : Bytes) (hne : w ≠ [])
    (hv : validWord w.length w = true) (hrest : rest = [] ∨ spaceWidth spaceSeqs rest ≠ 0) :
    scanString (32 :: (w ++ rest)) = Except.ok (w, rest) := by
  have hl : ∃ n, (w ++ rest).length = n + 1 := by
    cases w with
    | nil => exact absurd rfl hne
    | cons c t => exact ⟨(t ++ rest).length, by simp⟩
  obtain ⟨n, hn⟩ := hl
  have hnil : w ++ rest ≠ [] := by
    intro e; rw [e] at hn; simp at hn
  have hb : spaceWidth spaceSeqs (32 :: (w ++ rest)) = 1 := by
    simp [spaceWidth, asciiSpace]
  have h1 : SkipSpace (32 :: (w ++ rest)).length (32 :: (w ++ rest)) = Except.ok (w ++ rest) := by
    simp only [List.length_cons, SkipSpace, hb, hn]
    simp only [Nat.reduceEqDiff, ↓reduceIte, zero_add, List.drop_succ_cons, List.drop_zero]
    exact SkipSpace_word rest hne hv n
  unfold scanString
  simp only [h1, hn, SkipSpace_word rest hne hv n, hnil, ↓reduceIte]
  rw [← hn, token_word w.length w rest _ hv hrest (le_refl _)]

/-- `Sscanf` with `%s%s%s` on three tokens separated by single blanks. -/
theorem Sscanf3_three (M T V : Bytes)
    (hM : M ≠ [] ∧ validWord M.length M = true) (hT : T ≠ [] ∧ validWord T.length T = true)
    (hV : V ≠ [] ∧ validWord V.length V = true) :
    Sscanf3 (M ++ [32] ++ T ++ [32] ++ V) = Except.ok (M, T, V) := by
  have hb : ∀ s : Bytes, spaceWidth spaceSeqs (32 :: s) ≠ 0 := by
    intro s; simp [spaceWidth, asciiSpace]
  have e1 : M ++ [32] ++ T ++ [32] ++ V = M ++ (32 :: (T ++ (32 :: (V ++ [])))) := by simp
  unfold Sscanf3
  rw [e1, scanString_word _ hM.1 hM.2 (Or.inr (hb _))]
  simp only
  rw [scanString_blank_word _ hT.1 hT.2 (Or.inr (hb _))]
  simp only
  rw [scanString_blank_word _ hV.1 hV.2 (Or.inl rfl)]

theorem scanString_fields {s t r : Bytes} (h : scanString s = Except.ok (t, r)) (f : Nat) :
    (∃ x, Fields (f + 1) s = x :: Fields f r) ∧ r.length < s.length := by
  obtain ⟨hne, htok⟩ := scanString_ok h
  have hr : (firstField (stripSpace spaceSeqs s.length s).length
      (stripSpace spaceSeqs s.length s)).2 = r := by
    rw [← token_rest, htok]
  constructor
  · refine ⟨(firstField (stripSpace spaceSeqs s.length s).length
      (stripSpace spaceSeqs s.length s)).1, ?_⟩
    rw [Fields]
    simp only [hne, ↓reduceIte, hr]
  · have h1 : 1 ≤ (stripSpace spaceSeqs s.length s).length := by
      cases hs : stripSpace spaceSeqs s.length s with
      | nil => exact absurd hs hne
      | cons c t => simp
    have h2 := firstField_rest_lt h1 hne (stripSpace_done spaceSeqs _ s (le_refl _))
    rw [hr] at h2
    exact lt_of_lt_of_le h2 (stripSpace_length_le _ _ _)

/-- When `Sscanf` fills all three words the line has at least three fields. -/
theorem Sscanf3_ok_fields {line a b c : Bytes} (h : Sscanf3 line = Except.ok (a, b, c)) :
    3 ≤ (Fields line.length line).length := by
  unfold Sscanf3 at h
  cases h1 : scanString line with
  | error e => simp [h1] at h
  | ok x1 =>
    obtain ⟨t1, r1⟩ := x1
    simp only [h1] at h
    cases h2 : scanString r1 with
    | error e => simp [h2] at h
    | ok x2 =>
      obtain ⟨t2, r2⟩ := x2
      simp only [h2] at h
      cases h3 : scanString r2 with
      | error e => simp [h3] at h
      | ok x3 =>
        obtain ⟨t3, r3⟩ := x3
        have l1 := (scanString_fields h1 0).2
        have l2 := (scanString_fields h2 0).2
        have l3 := (scanString_fields h3 0).2
        obtain ⟨n, hn⟩ : ∃ n, line.length = n + 3 := ⟨line.length - 3, by omega⟩
        obtain ⟨y1, e1⟩ := (scanString_fields h1 (n + 2)).1
        obtain ⟨y2, e2⟩ := (scanString_fields h2 (n + 1)).1
        obtain ⟨y3, e3⟩ := (scanString_fields h3 n).1
        rw [hn, e1, e2, e3]
        simp

theorem Sscanf3_few_fields {line : Bytes} (h : (Fields line.length line).length < 3) :
    ∃ e, Sscanf3 line = Except.error e := by
  cases hs : Sscanf3 line with
  | error e => exact ⟨e, rfl⟩
  | ok x =>
    obtain ⟨a, b, c⟩ := x
    have := Sscanf3_ok_fields hs
    omega

theorem setupBody_fields (r : Request) :
    r.setupBody.Method = r.Method ∧ r.setupBody.RequestURL = r.RequestURL ∧
      r.setupBody.Proto = r.Proto := by
  unfold Request.setupBody
  by_cases h1 : r.Method ≠ ascii "POST" ∧ r.Method ≠ ascii "PUT"
  · rw [if_pos h1]
    exact ⟨rfl, rfl, rfl⟩
  · rw [if_neg h1]
    dsimp only
    by_cases h2 : r.Header.Get (ascii "Content-Length") ≠ []
    · rw [if_pos h2]
      cases ParseInt (r.Header.Get (ascii "Content-Length")) <;> exact ⟨rfl, rfl, rfl⟩
    · rw [if_neg h2]
      exact ⟨rfl, rfl, rfl⟩

/-- C7 as stated fails: in the request line `G\xffT / HTTP/1.1` the three
tokens are non-empty and free of white space, the target parses and the
empty header block follows, yet the Request does not hold the first token
verbatim: its byte 255 comes back as the three bytes of U+FFFD. -/
theorem readRequest_rewrites_invalid_byte :
    (Fields ([71, 255, 84] ++ ascii " / HTTP/1.1").length
      ([71, 255, 84] ++ ascii " / HTTP/1.1")) = [[71, 255, 84], ascii "/", ascii "HTTP/1.1"] ∧
    requestLineOf (readRequest parseOriginForm 6
      (newConn [[71, 255, 84] ++ ascii " / HTTP/1.1\r\n\r\n"] [])) =
        some ([71, 239, 191, 189, 84], ascii "/", ascii "HTTP/1.1") := by
  decide!

/-- C7, amended. When the request line that `readLine` returns is three
tokens METHOD, TARGET and VERSION (non-empty valid UTF-8 texts without white
space) separated by single blanks, TARGET parses as a request URI and a
header block that `readHeader` accepts follows, `readRequest` succeeds and
the Request holds the three tokens verbatim as `Method`, `RequestURL` and
`Proto`.  (A byte of a token that is not valid UTF-8 is not kept: it comes
back as U+FFFD.) -/
theorem readRequest_three_tokens (ParseRequestURI : Bytes → Except GoError URL) (fuel : Nat)
    (c : conn) (M T V : Bytes) (b1 b2 : Reader) (url : URL) (header : Header)
    (hM : M ≠ [] ∧ validWord M.length M = true) (hT : T ≠ [] ∧ validWord T.length T = true)
    (hV : V ≠ [] ∧ validWord V.length V = true)
    (hline : readLine fuel c.bufr = some ((M ++ [32] ++ T ++ [32] ++ V, none), b1))
    (hurl : ParseRequestURI T = Except.ok url)
    (hhdr : readHeader fuel b1 = some (Except.ok header, b2)) :
    ∃ r c1, readRequest ParseRequestURI fuel c = some (Except.ok r, c1) ∧
      r.Method = M ∧ r.RequestURL = T ∧ r.Proto = V := by
  unfold readRequest
  simp only [hline, ne_eq, not_true_eq_false, ↓reduceIte, Sscanf3_three M T V hM hT hV, hurl, hhdr]
  exact ⟨_, _, rfl, (setupBody_fields _).1, (setupBody_fields _).2.1, (setupBody_fields _).2.2⟩

/-- C7, amended, at a concrete input: `GET /a?x=1 HTTP/1.1` and one header
line. -/
theorem readRequest_three_tokens_witness :
    ∃ r c1, readRequest parseOriginForm 6
        (newConn [ascii "GET /a?x=1 HTTP/1.1\r\nHost: h\r\n\r\n"] []) = some (Except.ok r, c1) ∧
      r.Method = ascii "GET" ∧ r.RequestURL = ascii "/a?x=1" ∧ r.Proto = ascii "HTTP/1.1" :=
  readRequest_three_tokens parseOriginForm 6
    (newConn [ascii "GET /a?x=1 HTTP/1.1\r\nHost: h\r\n\r\n"] [])
    (ascii "GET") (ascii "/a?x=1") (ascii "HTTP/1.1")
    ((deliver 6 (newConn [ascii "GET /a?x=1 HTTP/1.1\r\nHost: h\r\n\r\n"] []).bufr
      [ascii "GET /a?x=1 HTTP/1.1"]).getD (newConn [] []).bufr)
    ((deliver 6 (newConn [ascii "GET /a?x=1 HTTP/1.1\r\nHost: h\r\n\r\n"] []).bufr
      [ascii "GET /a?x=1 HTTP/1.1", ascii "Host: h", []]).getD (newConn [] []).bufr)
    { Path := ascii "/a", RawQuery := ascii "x=1" } (tally [ascii "Host: h"])
    (by decide) (by decide) (by decide) (by decide!) rfl
    (readHeader_tally 4 _ _ [ascii "Host: h"] (by decide) (by decide!) 6 (by decide))

/-- C8 as stated fails: the line `GET / HTTP/1.1 extra` has four fields and
`readRequest` succeeds on it; the fourth field is not looked at. -/
theorem readRequest_ignores_fourth_token :
    (Fields (ascii "GET / HTTP/1.1 extra").length (ascii "GET / HTTP/1.1 extra")).length = 4 ∧
    requestLineOf (readRequest parseOriginForm 6
      (newConn [ascii "GET / HTTP/1.1 extra\r\n\r\n"] [])) =
        some (ascii "GET", ascii "/", ascii "HTTP/1.1") := by
  decide!

/-- C8, amended. When the request line that `readLine` returns has fewer than
three white-space-separated fields, `readRequest` returns the format error
"Sccanf err" and no Request.  (A line with more than three fields is not
rejected: the fields after the third are ignored.) -/
theorem readRequest_too_few_tokens (ParseRequestURI : Bytes → Except GoError URL) (fuel : Nat)
    (c : conn) (line : Bytes) (b1 : Reader)
    (hline : readLine fuel c.bufr = some ((line, none), b1))
    (hfew : (Fields line.length line).length < 3) :
    readRequest ParseRequestURI fuel c =
      some (Except.error (GoError.msg "Sccanf err"), { c with bufr := b1 }) := by
  obtain ⟨e, he⟩ := Sscanf3_few_fields hfew
  unfold readRequest
  simp only [hline, ne_eq, not_true_eq_false, ↓reduceIte, he]

/-- C8 amended, at a concrete input: the request line `GET /` has two fields. -/
theorem readRequest_too_few_tokens_witness :
    readRequest parseOriginForm 6 (newConn [ascii "GET /\r\n\r\n"] []) =
      some (Except.error (GoError.msg "Sccanf err"),
        { newConn [ascii "GET /\r\n\r\n"] [] with
          bufr := (deliver 6 (newConn [ascii "GET /\r\n\r\n"] []).bufr [ascii "GET /"]).getD
            (newConn [] []).bufr }) :=
  readRequest_too_few_tokens parseOriginForm 6 (newConn [ascii "GET /\r\n\r\n"] [])
    (ascii "GET /") _ (by decide!) (by decide)

/-! ### `parseQuery` and `Query` -/


theorem parseQueryStep_apply (m : GoMap Bytes) (p k : Bytes) :
    parseQueryStep m p k =
      if validPair p = true ∧ pairKey p = k then some (pairValue p) else m k := by
  unfold parseQueryStep validPair pairKey pairValue
  cases hi : IndexByte p 61 with
  | none => simp
  | some i =>
    simp only
    by_cases h1 : i + 1 = p.length
    · simp [h1]
    · simp only [h1, ↓reduceIte, GoMap.set, ne_eq, not_false_eq_true, decide_True, true_and]
      by_cases h2 : k = TrimSpace (List.take i p)
      · simp [h2]
      · have : ¬ TrimSpace (List.take i p) = k := fun e => h2 e.symm
        simp [h2, this]

/-- The mapping `parseQuery` builds: for every key the value of the last
valid pair with that key. -/
theorem parseQuery_fold (parts : List Bytes) : ∀ (m : GoMap Bytes) (k : Bytes),
    (parts.foldl parseQueryStep m) k =
      match (parts.filter (fun p => validPair p && pairKey p == k)).getLast? with
      | some p => some (pairValue p)
      | none => m k := by
  induction parts with
  | nil => intro m k; rfl
  | cons p ps ih =>
    intro m k
    rw [List.foldl_cons, ih, parseQueryStep_apply]
    by_cases hp : validPair p = true ∧ pairKey p = k
    · have e : (validPair p && pairKey p == k) = true := by simp [hp.1, hp.2]
      rw [List.filter_cons, if_pos e, List.getLast?_cons]
      cases hl : (List.filter (fun p => validPair p && pairKey p == k) ps).getLast? with
      | none => simp [hp]
      | some q => simp
    · have e : ¬ (validPair p && pairKey p == k) = true := by
        simpa [Bool.and_eq_true] using hp
      rw [List.filter_cons, if_neg e]
      simp only [hp, ↓reduceIte]

theorem Split_ne_nil (s : Bytes) (sep : Nat) : Split s sep ≠ [] := by
  cases s with
  | nil => simp [Split]
  | cons c cs =>
    rw [Split]
    split
    · simp
    · split <;> simp

theorem Split_no_sep (sep : Nat) : ∀ (s : Bytes), ∀ p ∈ Split s sep, sep ∉ p := by
  intro s
  induction s with
  | nil => intro p hp; simp [Split] at hp; simp [hp]
  | cons c cs ih =>
    intro p hp
    rw [Split] at hp
    split at hp
    · rcases List.mem_cons.mp hp with h | h
      · simp [h]
      · exact ih p h
    · rename_i hc
      cases hs : Split cs sep with
      | nil => exact absurd hs (Split_ne_nil cs sep)
      | cons q qs =>
        rw [hs] at hp ih
        simp only at hp
        rcases List.mem_cons.mp hp with h | h
        · subst h
          have := ih q (by simp)
          simp only [List.mem_cons, not_or]
          exact ⟨fun e => hc e.symm, this⟩
        · exact ih p (by simp [h])

theorem Split_Join (sep : Nat) : ∀ (ps : List Bytes), ps ≠ [] → (∀ p ∈ ps, sep ∉ p) →
    Split (Join ps sep) sep = ps := by
  have single : ∀ p : Bytes, sep ∉ p → ∀ rest : List Bytes,
      (∀ tl : Bytes, Split (p ++ sep :: tl) sep = p :: Split tl sep) ∧ Split p sep = [p] := by
    intro p
    induction p with
    | nil => intro _ _; exact ⟨fun tl => by simp [Split], by simp [Split]⟩
    | cons c cs ih =>
      intro hc rest
      simp only [List.mem_cons, not_or] at hc
      have hne : ¬ c = sep := fun e => hc.1 e.symm
      obtain ⟨h1, h2⟩ := ih hc.2 rest
      constructor
      · intro tl
        rw [List.cons_append, Split, if_neg hne, h1]
      · rw [Split, if_neg hne, h2]
  intro ps
  induction ps with
  | nil => intro h; exact absurd rfl h
  | cons p ps ih =>
    intro _ hall
    cases ps with
    | nil => simpa [Join] using (single p (hall p (by simp)) []).2
    | cons q qs =>
      rw [Join, (single p (hall p (by simp)) []).1, ih (by simp) (fun x hx => hall x (by simp [hx]))]

theorem filter_key_unique (l : List Bytes) (p : Bytes) (hp : p ∈ l) (hv : validPair p = true)
    (hnd : ((l.filter validPair).map pairKey).Nodup) :
    l.filter (fun q => validPair q && pairKey q == pairKey p) = [p] := by
  induction l with
  | nil => simp at hp
  | cons x xs ih =>
    by_cases hx : validPair x = true
    · rw [List.filter_cons, if_pos hx, List.map_cons, List.nodup_cons] at hnd
      obtain ⟨hnot, hnd2⟩ := hnd
      by_cases hk : pairKey x = pairKey p
      · -- then `p` is `x`, and no later valid part has this key
        have hpx : p = x := by
          rcases List.mem_cons.mp hp with h | h
          · exact h
          · exfalso
            apply hnot
            rw [hk]
            exact List.mem_map.mpr ⟨p, List.mem_filter.mpr ⟨h, hv⟩, rfl⟩
        subst hpx
        have htl : xs.filter (fun q => validPair q && pairKey q == pairKey p) = [] := by
          rw [List.filter_eq_nil_iff]
          intro q hq hc
          simp only [Bool.and_eq_true, beq_iff_eq] at hc
          apply hnot
          rw [← hc.2]
          exact List.mem_map.mpr ⟨q, List.mem_filter.mpr ⟨hq, hc.1⟩, rfl⟩
        rw [List.filter_cons, if_pos (by simp [hx]), htl]
      · have hpx : p ∈ xs := by
          rcases List.mem_cons.mp hp with h | h
          · exact absurd (by rw [h]) hk
          · exact h
        rw [List.filter_cons, if_neg (by simp [hk])]
        exact ih hpx hnd2
    · rw [List.filter_cons, if_neg hx] at hnd
      have hpx : p ∈ xs := by
        rcases List.mem_cons.mp hp with h | h
        · exact absurd (h ▸ hv) hx
        · exact h
      rw [List.filter_cons, if_neg (by simp [hx])]
      exact ih hpx hnd

/-- C9. For a raw query whose valid pairs (a `=` that is not the last
character of the part) have pairwise distinct trimmed keys: `Query` of the key
of a valid pair returns its trimmed value; the parts without a valid `=` are
ignored, the mapping being that of the query without them; and `Query` of a
key of no valid pair returns the empty string. -/
theorem Query_distinct_keys (r : Request) (raw : Bytes) (hq : r.queryString = parseQuery raw)
    (hdist : (((Split raw 38).filter validPair).map pairKey).Nodup) :
    (∀ p ∈ Split raw 38, validPair p = true → r.Query (pairKey p) = pairValue p) ∧
    parseQuery raw = parseQuery (Join ((Split raw 38).filter validPair) 38) ∧
    (∀ k, (∀ p ∈ Split raw 38, validPair p = true → pairKey p ≠ k) → r.Query k = []) := by
  refine ⟨?_, ?_, ?_⟩
  · intro p hp hv
    unfold Request.Query GoMap.index
    rw [hq, parseQuery, parseQuery_fold, filter_key_unique _ p hp hv hdist]
    rfl
  · funext k
    rw [parseQuery, parseQuery, parseQuery_fold, parseQuery_fold]
    by_cases hF : (Split raw 38).filter validPair = []
    · have h1 : (Split raw 38).filter (fun p => validPair p && pairKey p == k) = [] := by
        rw [List.filter_eq_nil_iff] at hF ⊢
        intro q hq hc
        simp only [Bool.and_eq_true] at hc
        exact hF q hq hc.1
      rw [hF, h1]
      rfl
    · have hsep : ∀ p ∈ (Split raw 38).filter validPair, 38 ∉ p :=
        fun p hp => Split_no_sep 38 raw p (List.mem_filter.mp hp).1
      rw [Split_Join 38 _ hF hsep, List.filter_filter]
      congr 2
      apply List.filter_congr
      intro x _
      cases validPair x <;> simp
  · intro k hk
    unfold Request.Query GoMap.index
    rw [hq, parseQuery, parseQuery_fold]
    have h1 : (Split raw 38).filter (fun p => validPair p && pairKey p == k) = [] := by
      rw [List.filter_eq_nil_iff]
      intro q hq hc
      simp only [Bool.and_eq_true, beq_iff_eq] at hc
      exact hk q hq hc.1 hc.2
    rw [h1]
    rfl

/-- C9, at the query of the code comment, `name=gu&token=1234`. -/
theorem Query_distinct_keys_witness :
    (∀ p ∈ Split (ascii "name=gu&token=1234") 38, validPair p = true →
      (requestWithQuery (ascii "name=gu&token=1234")).Query (pairKey p) = pairValue p) ∧
    parseQuery (ascii "name=gu&token=1234") =
      parseQuery (Join ((Split (ascii "name=gu&token=1234") 38).filter validPair) 38) ∧
    (∀ k, (∀ p ∈ Split (ascii "name=gu&token=1234") 38, validPair p = true → pairKey p ≠ k) →
      (requestWithQuery (ascii "name=gu&token=1234")).Query k = []) :=
  Query_distinct_keys (requestWithQuery (ascii "name=gu&token=1234"))
    (ascii "name=gu&token=1234") rfl (by decide)

/-- C10 as stated fails: for the target `/?a=1&a=2`, `Query("a")` is `2`, the
value of the last pair, not `1`. -/
theorem Query_duplicate_key_not_first :
    queryOf (readRequest parseOriginForm 6 (newConn [ascii "GET /?a=1&a=2 HTTP/1.1\r\n\r\n"] []))
      (ascii "a") = some (ascii "2") ∧
    (requestWithQuery (ascii "a=1&a=2")).Query (ascii "a") = ascii "2" := by
  decide!

/-- C10, amended. When a key occurs in one or more pairs with a valid `=`
separator, the last occurrence wins: `Query(k)` returns the trimmed value of
the last such pair. -/
theorem Query_last_wins (r : Request) (raw k p : Bytes) (hq : r.queryString = parseQuery raw)
    (hp : ((Split raw 38).filter (fun q => validPair q && pairKey q == k)).getLast? = some p) :
    r.Query k = pairValue p := by
  unfold Request.Query GoMap.index
  rw [hq, parseQuery, parseQuery_fold, hp]
  rfl

/-- C10 amended, at `a=1&a=2`: the pair `a=2` is the last with key `a`. -/
theorem Query_last_wins_witness :
    (requestWithQuery (ascii "a=1&a=2")).Query (ascii "a") = pairValue (ascii "a=2") :=
  Query_last_wins (requestWithQuery (ascii "a=1&a=2")) (ascii "a=1&a=2") (ascii "a") (ascii "a=2")
    rfl (by decide)

/-! ### Cookies and duplicate keys -/


theorem cookieStep_apply (m : GoMap Bytes) (p k : Bytes) :
    cookieStep m p k = if hasEq p = true ∧ pairKey p = k then some (pairValue p) else m k := by
  unfold cookieStep hasEq pairKey pairValue
  cases hi : IndexByte p 61 with
  | none => simp
  | some i =>
    simp only [GoMap.set, Option.isSome_some, true_and]
    by_cases h2 : k = TrimSpace (List.take i p)
    · simp [h2]
    · have : ¬ TrimSpace (List.take i p) = k := fun e => h2 e.symm
      simp [h2, this]

theorem cookie_fold (parts : List Bytes) : ∀ (m : GoMap Bytes) (k : Bytes),
    (parts.foldl cookieStep m) k =
      match (parts.filter (fun p => hasEq p && pairKey p == k)).getLast? with
      | some p => some (pairValue p)
      | none => m k := by
  induction parts with
  | nil => intro m k; rfl
  | cons p ps ih =>
    intro m k
    rw [List.foldl_cons, ih, cookieStep_apply]
    by_cases hp : hasEq p = true ∧ pairKey p = k
    · have e : (hasEq p && pairKey p == k) = true := by simp [hp.1, hp.2]
      rw [List.filter_cons, if_pos e, List.getLast?_cons]
      cases hl : (List.filter (fun p => hasEq p && pairKey p == k) ps).getLast? with
      | none => simp [hp]
      | some q => simp
    · have e : ¬ (hasEq p && pairKey p == k) = true := by
        simpa [Bool.and_eq_true] using hp
      rw [List.filter_cons, if_neg e]
      simp only [hp, ↓reduceIte]

theorem cookieLine_eq (m : GoMap Bytes) (line : Bytes) :
    cookieLine m line = (Split (TrimSpace line) 59).foldl cookieStep m := by
  unfold cookieLine
  simp only
  split
  · rename_i h
    obtain ⟨h1, h2⟩ := h
    cases hs : Split (TrimSpace line) 59 with
    | nil => rfl
    | cons a t =>
      rw [hs] at h1 h2
      simp only [List.head?_cons, Option.some.injEq] at h2
      simp only [List.length_cons, add_left_eq_self, List.length_eq_zero] at h1
      subst h1 h2
      rfl
  · rfl

theorem cookieLines_fold (lines : List Bytes) : ∀ m : GoMap Bytes,
    lines.foldl cookieLine m =
      (lines.flatMap (fun line => Split (TrimSpace line) 59)).foldl cookieStep m := by
  induction lines with
  | nil => intro m; rfl
  | cons l ls ih =>
    intro m
    rw [List.foldl_cons, ih, cookieLine_eq, List.flatMap_cons, List.foldl_append]

/-- The cookie mapping of a Request whose cookies were not parsed before. -/
theorem Cookie_fresh (r : Request) (hfresh : r.cookies = none) (k : Bytes) :
    (r.Cookie k).1 =
      match ((cookiePieces r.Header).filter (fun p => hasEq p && pairKey p == k)).getLast? with
      | some p => pairValue p
      | none => [] := by
  unfold Request.Cookie Request.parseCookies cookiePieces
  simp only [hfresh]
  cases hc : r.Header (ascii "Cookie") with
  | none => rfl
  | some lines =>
    simp only [GoMap.index]
    rw [cookieLines_fold, cookie_fold]
    cases ((lines.flatMap (fun line => Split (TrimSpace line) 59)).filter
      (fun p => hasEq p && pairKey p == k)).getLast? <;> rfl

/-- C11. `parseQuery` resolves duplicate keys last-wins: it maps a key to the
trimmed value of the last `&`-separated part with a valid `=` (its first `=`
is not its last character) whose trimmed text before that `=` is the key, and
has no entry for the key when there is no such part. -/
theorem parseQuery_last_wins (raw k : Bytes) :
    parseQuery raw k =
      (((Split raw 38).filter (fun p => validPair p && pairKey p == k)).getLast?).map
        pairValue := by
  rw [parseQuery, parseQuery_fold]
  cases ((Split raw 38).filter (fun p => validPair p && pairKey p == k)).getLast? <;> rfl

theorem filter_unique_key (v : Bytes → Bool) (l : List Bytes) (p : Bytes) (hp : p ∈ l)
    (hv : v p = true) (hnd : ((l.filter v).map pairKey).Nodup) :
    l.filter (fun q => v q && pairKey q == pairKey p) = [p] := by
  induction l with
  | nil => simp at hp
  | cons x xs ih =>
    by_cases hx : v x = true
    · rw [List.filter_cons, if_pos hx, List.map_cons, List.nodup_cons] at hnd
      obtain ⟨hnot, hnd2⟩ := hnd
      by_cases hk : pairKey x = pairKey p
      · have hpx : p = x := by
          rcases List.mem_cons.mp hp with h | h
          · exact h
          · exfalso
            apply hnot
            rw [hk]
            exact List.mem_map.mpr ⟨p, List.mem_filter.mpr ⟨h, hv⟩, rfl⟩
        subst hpx
        have htl : xs.filter (fun q => v q && pairKey q == pairKey p) = [] := by
          rw [List.filter_eq_nil_iff]
          intro q hq hc
          simp only [Bool.and_eq_true, beq_iff_eq] at hc
          apply hnot
          rw [← hc.2]
          exact List.mem_map.mpr ⟨q, List.mem_filter.mpr ⟨hq, hc.1⟩, rfl⟩
        rw [List.filter_cons, if_pos (by simp [hx]), htl]
      · have hpx : p ∈ xs := by
          rcases List.mem_cons.mp hp with h | h
          · exact absurd (by rw [h]) hk
          · exact h
        rw [List.filter_cons, if_neg (by simp [hk])]
        exact ih hpx hnd2
    · rw [List.filter_cons, if_neg hx] at hnd
      have hpx : p ∈ xs := by
        rcases List.mem_cons.mp hp with h | h
        · exact absurd (h ▸ hv) hx
        · exact h
      rw [List.filter_cons, if_neg (by simp [hx])]
      exact ih hpx hnd

theorem cookiePieces_single {h : Header} {line : Bytes}
    (hc : h (ascii "Cookie") = some [line]) :
    cookiePieces h = Split (TrimSpace line) 59 := by
  unfold cookiePieces
  rw [hc]
  simp

/-- C12. On a Request whose cookies were not parsed before: when the header
has the single Cookie value `k1=v1; k2=v2; ...` with pairwise distinct trimmed
keys, `Cookie(ki)` returns the trimmed `vi` for every piece with a `=`, pieces
without `=` are skipped and `Cookie` of any other name returns the empty
string; when the Cookie header is absent or its value is empty, `Cookie`
returns the empty string for every name. -/
theorem Cookie_distinct_keys (r : Request) (hfresh : r.cookies = none) :
    (∀ line, r.Header (ascii "Cookie") = some [line] →
      (((Split (TrimSpace line) 59).filter hasEq).map pairKey).Nodup →
      (∀ p ∈ Split (TrimSpace line) 59, hasEq p = true →
        (r.Cookie (pairKey p)).1 = pairValue p) ∧
      (∀ k, (∀ p ∈ Split (TrimSpace line) 59, hasEq p = true → pairKey p ≠ k) →
        (r.Cookie k).1 = [])) ∧
    ((r.Header (ascii "Cookie") = none ∨
        ∃ line, r.Header (ascii "Cookie") = some [line] ∧ TrimSpace line = []) →
      ∀ name, (r.Cookie name).1 = []) := by
  have hnone : ∀ (l : List Bytes) (k : Bytes),
      (∀ p ∈ l, hasEq p = true → pairKey p ≠ k) →
      l.filter (fun p => hasEq p && pairKey p == k) = [] := by
    intro l k hk
    rw [List.filter_eq_nil_iff]
    intro q hq hc
    simp only [Bool.and_eq_true, beq_iff_eq] at hc
    exact hk q hq hc.1 hc.2
  refine ⟨?_, ?_⟩
  · intro line hc hdist
    refine ⟨?_, ?_⟩
    · intro p hp hv
      rw [Cookie_fresh r hfresh, cookiePieces_single hc,
        filter_unique_key hasEq _ p hp hv hdist]
      rfl
    · intro k hk
      rw [Cookie_fresh r hfresh, cookiePieces_single hc, hnone _ k hk]
      rfl
  · intro h name
    rw [Cookie_fresh r hfresh]
    rcases h with h | ⟨line, hc, he⟩
    · simp [cookiePieces, h]
    · rw [cookiePieces_single hc, he]
      rfl

/-- C12, at the header of the code comment, `uuid=12314753; tid=1BDB9E9; HOME=1`. -/
theorem Cookie_distinct_keys_witness :
    (∀ p ∈ Split (TrimSpace (ascii "uuid=12314753; tid=1BDB9E9; HOME=1")) 59, hasEq p = true →
      ((requestWith (ascii "GET")
        (headerOf (ascii "Cookie") (ascii "uuid=12314753; tid=1BDB9E9; HOME=1"))).Cookie
          (pairKey p)).1 = pairValue p) ∧
    (∀ k, (∀ p ∈ Split (TrimSpace (ascii "uuid=12314753; tid=1BDB9E9; HOME=1")) 59,
        hasEq p = true → pairKey p ≠ k) →
      ((requestWith (ascii "GET")
        (headerOf (ascii "Cookie") (ascii "uuid=12314753; tid=1BDB9E9; HOME=1"))).Cookie k).1
          = []) :=
  (Cookie_distinct_keys (requestWith (ascii "GET")
    (headerOf (ascii "Cookie") (ascii "uuid=12314753; tid=1BDB9E9; HOME=1"))) rfl).1
    (ascii "uuid=12314753; tid=1BDB9E9; HOME=1") rfl (by decide)

/-- C13. After a first call `Cookie(m)` the cookie mapping is stored on the
Request (also when it is empty), and a later call `Cookie(n)` neither
recomputes nor changes it, also when the header mapping was replaced in
between: it leaves the Request as it is and returns the value the stored
mapping has for `n`, which is the value a first call `Cookie(n)` returns. -/
theorem Cookie_cached (r : Request) (m n : Bytes) (h1 : Header) :
    ∃ stored, (r.Cookie m).2.cookies = some stored ∧
      (r.Cookie m).2.Cookie n = (stored.index n, (r.Cookie m).2) ∧
      ({ (r.Cookie m).2 with Header := h1 }).Cookie n =
        (stored.index n, { (r.Cookie m).2 with Header := h1 }) ∧
      (r.Cookie n).1 = stored.index n := by
  unfold Request.Cookie Request.parseCookies
  cases hc : r.cookies with
  | some c => exact ⟨c, by simp [hc], by simp [hc], by simp [hc], by simp [hc]⟩
  | none =>
    cases hh : r.Header (ascii "Cookie") with
    | none => exact ⟨GoMap.empty, by simp, by simp, by simp, by simp⟩
    | some lines =>
      exact ⟨lines.foldl cookieLine GoMap.empty, by simp, by simp, by simp, by simp⟩

/-- C20. On a Request whose cookies were not parsed before, `Cookie(k)` is the
trimmed text after the first `=` of the last piece with a `=`, taken over the
`;`-separated pieces of all values of the Cookie header in order, whose
trimmed text before its first `=` is `k` (the empty string when there is no
such piece); a piece that ends in `=` counts, with the empty value. -/
theorem Cookie_last_piece_wins (r : Request) (hfresh : r.cookies = none) (k : Bytes) :
    (r.Cookie k).1 =
      match ((cookiePieces r.Header).filter (fun p => hasEq p && pairKey p == k)).getLast? with
      | some p => pairValue p
      | none => [] :=
  Cookie_fresh r hfresh k

/-- C20, at the header `a=1; a=`, where `Cookie("a")` is the empty string,
against the query `a=1&a=`, where `Query("a")` is `1`. -/
theorem Cookie_last_piece_wins_witness :
    ((requestWith (ascii "GET") (headerOf (ascii "Cookie") (ascii "a=1; a="))).Cookie
        (ascii "a")).1 =
      (match ((cookiePieces (requestWith (ascii "GET")
          (headerOf (ascii "Cookie") (ascii "a=1; a="))).Header).filter
            (fun p => hasEq p && pairKey p == ascii "a")).getLast? with
       | some p => pairValue p
       | none => []) ∧
    ((requestWith (ascii "GET") (headerOf (ascii "Cookie") (ascii "a=1; a="))).Cookie
        (ascii "a")).1 = [] ∧
    (requestWithQuery (ascii "a=1&a=")).Query (ascii "a") = ascii "1" :=
  ⟨Cookie_last_piece_wins _ rfl (ascii "a"), by decide, by decide⟩

/-! ### Reading the body -/


theorem Conn_Read_spec (R : Conn) (k : Nat) (hk : 0 < k) :
    R.flatten = (Conn.Read R k).1.1 ++ (Conn.Read R k).2.flatten ∧
    (Conn.Read R k).1.1.length ≤ k ∧
    ((Conn.Read R k).1.2 ≠ none → (Conn.Read R k).1.1 = [] ∧ R.flatten = []) ∧
    ((Conn.Read R k).1.2 = none →
      (Conn.Read R k).1.1 ≠ [] ∨ (Conn.Read R k).2.length < R.length) ∧
    (Conn.Read R k).2.length ≤ R.length := by
  cases R with
  | nil => simp [Conn.Read]
  | cons c cs =>
    unfold Conn.Read
    by_cases h : c.length ≤ k
    · simp [h]
    · simp only [h, ↓reduceIte, List.flatten_cons, List.length_take, List.length_cons]
      refine ⟨by rw [← List.append_assoc, List.take_append_drop], by omega, by simp, ?_, le_refl _⟩
      intro _
      left
      intro e
      have := congrArg List.length e
      simp only [List.length_take, List.length_nil] at this
      omega

theorem LimitedReader_Read_spec (l : LimitedReader) (k : Nat) (hk : 0 < k) :
    l.R.flatten.take l.N.toNat =
      (l.Read k).1.1 ++ (l.Read k).2.R.flatten.take (l.Read k).2.N.toNat ∧
    (l.Read k).1.1.length ≤ k ∧
    ((l.Read k).1.2 ≠ none → (l.Read k).1.1 = [] ∧ l.R.flatten.take l.N.toNat = []) ∧
    ((l.Read k).1.2 = none →
      (l.Read k).1.1 ≠ [] ∨ (l.Read k).2.R.length < l.R.length) ∧
    (l.Read k).2.R.length ≤ l.R.length ∧
    (l.Read k).2.N = l.N - ((l.Read k).1.1.length : Int) := by
  unfold LimitedReader.Read
  by_cases hN : l.N ≤ 0
  · simp only [hN, ↓reduceIte]
    have : l.N.toNat = 0 := by omega
    simp [this]
  · simp only [hN, ↓reduceIte]
    have hk1 : 0 < (if (k : Int) > l.N then l.N.toNat else k) := by
      split <;> omega
    have hk2 : (if (k : Int) > l.N then l.N.toNat else k) ≤ k := by
      split <;> omega
    have hk3 : (if (k : Int) > l.N then l.N.toNat else k) ≤ l.N.toNat := by
      split <;> omega
    obtain ⟨h1, h2, h3, h4, h5⟩ := Conn_Read_spec l.R _ hk1
    generalize Conn.Read l.R (if (k : Int) > l.N then l.N.toNat else k) = res at *
    refine ⟨?_, by omega, ?_, h4, h5, trivial⟩
    · rw [h1, List.take_append_eq_append_take, List.take_of_length_le (by omega)]
      congr 2
      omega
    · intro he
      obtain ⟨e1, e2⟩ := h3 he
      simp [e1, e2]

theorem buffered_length (b : Reader) (h1 : b.w ≤ b.buf.length) :
    (buffered b).length = b.w - b.r := by
  simp [buffered, List.length_drop, List.length_take, h1]

/-- One `Read` of the buffered reader hands out a prefix of what is pending. -/
theorem Reader_Read_spec (b : Reader) (k : Nat) (hk : 0 < k) (hwf : b.WF) :
    pending b = (b.Read k).1.1 ++ pending (b.Read k).2 ∧
    (b.Read k).1.1.length ≤ k ∧
    (b.Read k).2.WF ∧
    ((b.Read k).1.2 ≠ none → (b.Read k).1.1 = [] ∧ pending b = []) ∧
    ((b.Read k).1.2 = none →
      (b.Read k).1.1 ≠ [] ∨ (b.Read k).2.rd.R.length < b.rd.R.length) ∧
    (b.Read k).2.rd.R.length ≤ b.rd.R.length := by
  obtain ⟨hrw, hwl, herr⟩ := hwf
  have hk0 : ¬ k = 0 := by omega
  by_cases hrw2 : b.r = b.w
  · -- nothing is buffered
    have hbuf : buffered b = [] := by
      apply List.eq_nil_of_length_eq_zero
      rw [buffered_length b hwl]; omega
    have hp : pending b = b.rd.R.flatten.take b.rd.N.toNat := by
      rw [pending, hbuf, List.nil_append]
    by_cases hbig : k ≥ b.buf.length
    · -- large read: straight from the underlying reader
      obtain ⟨h1, h2, h3, h4, h5, _⟩ := LimitedReader_Read_spec b.rd k hk
      have e : b.Read k = ((b.rd.Read k).1, { b with rd := (b.rd.Read k).2, err := none }) := by
        simp only [Reader.Read, hk0, ↓reduceIte, hrw2, herr, hbig]
      rw [e]
      refine ⟨?_, h2, ⟨hrw, hwl, rfl⟩, ?_, h4, h5⟩
      · have hb2 : buffered { b with rd := (b.rd.Read k).2, err := none } = [] := hbuf
        rw [hp, h1, pending, hb2, List.nil_append]
      · intro he
        obtain ⟨e1, e2⟩ := h3 he
        exact ⟨e1, by rw [hp]; exact e2⟩
    · -- one read into the buffer
      have hlen : 0 < b.buf.length := by omega
      obtain ⟨h1, h2, h3, h4, h5, _⟩ := LimitedReader_Read_spec b.rd b.buf.length hlen
      by_cases hd : (b.rd.Read b.buf.length).1.1.length = 0
      · have hd0 : (b.rd.Read b.buf.length).1.1 = [] := List.eq_nil_of_length_eq_zero hd
        have e : b.Read k = (([], (b.rd.Read b.buf.length).1.2),
            { b with r := 0, w := 0, rd := (b.rd.Read b.buf.length).2,
                     buf := (b.rd.Read b.buf.length).1.1 ++
                       b.buf.drop (b.rd.Read b.buf.length).1.1.length, err := none }) := by
          simp only [Reader.Read, hk0, ↓reduceIte, hrw2, herr, hbig, hd]
        rw [e]
        refine ⟨?_, by simp, ⟨le_refl _, Nat.zero_le _, rfl⟩, ?_, ?_, h5⟩
        · rw [hp, h1, hd0]
          simp only [pending, buffered, List.take_zero, List.drop_nil, List.nil_append]
        · intro he
          exact ⟨rfl, by rw [hp]; exact (h3 he).2⟩
        · intro he
          right
          rcases h4 he with h | h
          · exact absurd hd0 h
          · exact h
      · have hne : (b.rd.Read b.buf.length).1.1 ≠ [] := fun e0 => hd (by rw [e0]; rfl)
        have herr0 : (b.rd.Read b.buf.length).1.2 = none := by
          by_contra hc
          exact hne (h3 hc).1
        have e : b.Read k =
            ((((((b.rd.Read b.buf.length).1.1 ++
                b.buf.drop (b.rd.Read b.buf.length).1.1.length).take
                  (b.rd.Read b.buf.length).1.1.length).drop 0).take
                    (min k ((b.rd.Read b.buf.length).1.1.length - 0)), none),
            { b with r := 0 + min k ((b.rd.Read b.buf.length).1.1.length - 0),
                     w := (b.rd.Read b.buf.length).1.1.length,
                     rd := (b.rd.Read b.buf.length).2,
                     buf := (b.rd.Read b.buf.length).1.1 ++
                       b.buf.drop (b.rd.Read b.buf.length).1.1.length,
                     err := (b.rd.Read b.buf.length).1.2 }) := by
          simp only [Reader.Read, hk0, ↓reduceIte, hrw2, herr, hbig, hd]
        rw [e]
        generalize (b.rd.Read b.buf.length) = res at *
        have htake : (res.1.1 ++ b.buf.drop res.1.1.length).take res.1.1.length = res.1.1 := by
          rw [List.take_append_of_le_length (le_refl _), List.take_length]
        simp only [htake, List.drop_zero, Nat.sub_zero, Nat.zero_add]
        have hpos : 0 < res.1.1.length := Nat.pos_of_ne_zero hd
        refine ⟨?_, ?_, ⟨?_, ?_, herr0⟩, ?_, ?_, h5⟩
        · rw [hp, h1]
          simp only [pending, buffered, htake]
          rw [← List.append_assoc, List.take_append_drop]
        · simp only [List.length_take]; omega
        · simp only; omega
        · simp only [List.length_append, List.length_drop]; omega
        · intro he; exact absurd rfl he
        · intro _
          left
          intro e0
          have := congrArg List.length e0
          simp only [List.length_take, List.length_nil] at this
          omega
  · -- copy from the buffer
    have hlt : b.r < b.w := by omega
    have e : b.Read k = ((((b.buf.take b.w).drop b.r).take (min k (b.w - b.r)), none),
        { b with r := b.r + min k (b.w - b.r) }) := by
      simp only [Reader.Read, hk0, ↓reduceIte, hrw2]
    rw [e]
    have hbl := buffered_length b hwl
    refine ⟨?_, ?_, ⟨?_, hwl, herr⟩, ?_, ?_, le_refl _⟩
    · simp only [pending, buffered]
      rw [← List.append_assoc]
      congr 1
      rw [← List.drop_drop, List.take_append_drop]
    · simp only [List.length_take]; omega
    · simp only; omega
    · intro he; exact absurd rfl he
    · intro _
      left
      intro e0
      have := congrArg List.length e0
      simp only [List.length_take, List.length_drop, List.length_nil] at this
      omega

/-- Reading an `io.LimitReader` body of `n` bytes to its end, on a
connection that still holds at least `n` bytes: the reads return exactly the
first `n` pending bytes and then `io.EOF`, and the bytes after them stay
pending in the connection's reader. -/
theorem readBody_limit (ks : List Nat) : ∀ (n : Int) (c : conn), 0 ≤ n → c.bufr.WF →
    n.toNat ≤ (pending c.bufr).length → (∀ k ∈ ks, 0 < k) →
    n.toNat + c.bufr.rd.R.length + 1 ≤ ks.length →
    (readBody ks (Body.LimitReader n) c).1 = ((pending c.bufr).take n.toNat, some GoError.EOF) ∧
    pending (readBody ks (Body.LimitReader n) c).2.2.bufr = (pending c.bufr).drop n.toNat ∧
    (readBody ks (Body.LimitReader n) c).2.2.bufr.WF := by
  induction ks with
  | nil => intro n c _ _ _ _ hlen; simp at hlen
  | cons k rest ih =>
    intro n c hn hwf hpend hpos hlen
    by_cases h0 : n ≤ 0
    · have hz : n.toNat = 0 := by omega
      have e : readBody (k :: rest) (Body.LimitReader n) c =
          (([], some GoError.EOF), Body.LimitReader n, c) := by
        simp only [readBody, Body.Read, h0, ↓reduceIte]
      rw [e, hz]
      exact ⟨by simp, by simp, hwf⟩
    · have hk : 0 < k := hpos k (by simp)
      have hk1 : 0 < (if (k : Int) > n then n.toNat else k) := by split <;> omega
      have hk2 : (if (k : Int) > n then n.toNat else k) ≤ n.toNat := by split <;> omega
      obtain ⟨s1, s2, s3, s4, s5, s6⟩ := Reader_Read_spec c.bufr _ hk1 hwf
      generalize hres : c.bufr.Read (if (k : Int) > n then n.toNat else k) = res at *
      have herr : res.1.2 = none := by
        by_contra hc
        have := (s4 hc).2
        rw [this] at hpend
        simp at hpend
        omega
      have e : readBody (k :: rest) (Body.LimitReader n) c =
          ((res.1.1 ++ (readBody rest (Body.LimitReader (n - (res.1.1.length : Int)))
              { c with bufr := res.2 }).1.1,
            (readBody rest (Body.LimitReader (n - (res.1.1.length : Int)))
              { c with bufr := res.2 }).1.2),
           (readBody rest (Body.LimitReader (n - (res.1.1.length : Int)))
              { c with bufr := res.2 }).2) := by
        simp only [readBody, Body.Read, h0, ↓reduceIte, hres, herr]
      have hplen : (pending c.bufr).length = res.1.1.length + (pending res.2).length := by
        rw [s1, List.length_append]
      have hprog := s5 herr
      have hdl : 0 < res.1.1.length ∨ res.2.rd.R.length < c.bufr.rd.R.length := by
        rcases hprog with h | h
        · left; exact List.length_pos.mpr h
        · right; exact h
      obtain ⟨i1, i2, i3⟩ := ih (n - (res.1.1.length : Int)) { c with bufr := res.2 }
        (by omega) s3 (by simp only; omega) (fun x hx => hpos x (by simp [hx]))
        (by simp only [List.length_cons] at hlen; simp only; omega)
      rw [e]
      simp only at i1 i2 i3 ⊢
      have ht : (n - (res.1.1.length : Int)).toNat = n.toNat - res.1.1.length := by omega
      refine ⟨?_, ?_, i3⟩
      · have h1 := congrArg Prod.fst i1
        have h2 := congrArg Prod.snd i1
        simp only at h1 h2
        rw [h1, h2, s1, ht, List.take_append_eq_append_take,
          List.take_of_length_le (by omega : res.1.1.length ≤ n.toNat)]
      · rw [i2, s1, ht, List.drop_append_eq_append_drop,
          List.drop_of_length_le (by omega : res.1.1.length ≤ n.toNat), List.nil_append]

/-- C14. For a method other than POST and PUT, whatever the header mapping
holds, `setupBody` selects the always-exhausted body: every read of it returns
no bytes and `io.EOF`, and leaves the body and the connection (its buffered
input included) as they were. -/
theorem setupBody_other_method (r : Request)
    (hm : r.Method ≠ ascii "POST" ∧ r.Method ≠ ascii "PUT") (c : conn) (k : Nat) :
    r.setupBody.Body = Body.eofReader ∧
      r.setupBody.Body.Read c k = (([], some GoError.EOF), Body.eofReader, c) := by
  have e : r.setupBody.Body = Body.eofReader := by
    unfold Request.setupBody
    rw [if_pos hm]
  rw [e]
  exact ⟨rfl, rfl⟩

/-- C14, at a GET request with the header `Content-Length: 5`. -/
theorem setupBody_other_method_witness :
    (requestWith (ascii "GET") (headerOf (ascii "Content-Length") (ascii "5"))).setupBody.Body
        = Body.eofReader ∧
      (requestWith (ascii "GET") (headerOf (ascii "Content-Length")
        (ascii "5"))).setupBody.Body.Read (newConn [ascii "hello"] []) 512 =
          (([], some GoError.EOF), Body.eofReader, newConn [ascii "hello"] []) :=
  setupBody_other_method _ (by decide) _ _

theorem setupBody_limit {r : Request} {n : Int}
    (hm : r.Method = ascii "POST" ∨ r.Method = ascii "PUT")
    (hcl : ParseInt (r.Header.Get (ascii "Content-Length")) = Except.ok n) :
    r.setupBody.Body = Body.LimitReader n := by
  have h1 : ¬ (r.Method ≠ ascii "POST" ∧ r.Method ≠ ascii "PUT") := by
    rcases hm with h | h
    · exact fun hc => hc.1 h
    · exact fun hc => hc.2 h
  have h2 : r.Header.Get (ascii "Content-Length") ≠ [] := by
    intro e
    rw [e] at hcl
    simp [ParseInt] at hcl
  unfold Request.setupBody
  rw [if_neg h1]
  simp only [h2, ne_eq, not_false_eq_true, ↓reduceIte, hcl]

/-- C15. For a POST or PUT request whose Content-Length parses as the
non-negative integer `n`, on a connection whose reader still holds at least
`n` bytes: reading `Body` to its end yields exactly the first `n` of those
bytes and then `io.EOF`, and every byte after them is still pending in the
connection's reader. -/
theorem Body_exactly_content_length (r : Request) (c : conn) (n : Int) (ks : List Nat)
    (hm : r.Method = ascii "POST" ∨ r.Method = ascii "PUT")
    (hcl : ParseInt (r.Header.Get (ascii "Content-Length")) = Except.ok n) (hn : 0 ≤ n)
    (hwf : c.bufr.WF) (hpend : n.toNat ≤ (pending c.bufr).length)
    (hks : ∀ k ∈ ks, 0 < k) (hlen : n.toNat + c.bufr.rd.R.length + 1 ≤ ks.length) :
    (readBody ks r.setupBody.Body c).1 =
        ((pending c.bufr).take n.toNat, some GoError.EOF) ∧
      pending (readBody ks r.setupBody.Body c).2.2.bufr = (pending c.bufr).drop n.toNat := by
  rw [setupBody_limit hm hcl]
  obtain ⟨h1, h2, _⟩ := readBody_limit ks n c hn hwf hpend hks hlen
  exact ⟨h1, h2⟩

/-- C15, at `Content-Length: 5` on a connection that holds `hello` and then
the next request. -/
theorem Body_exactly_content_length_witness :
    (readBody (List.replicate 8 512)
        (requestWith (ascii "POST") (headerOf (ascii "Content-Length")
          (ascii "5"))).setupBody.Body
        (newConn [ascii "helloGET /b HTTP/1.1\r\n\r\n"] [])).1 =
        ((pending (newConn [ascii "helloGET /b HTTP/1.1\r\n\r\n"] []).bufr).take (5 : Int).toNat,
          some GoError.EOF) ∧
      pending (readBody (List.replicate 8 512)
        (requestWith (ascii "POST") (headerOf (ascii "Content-Length")
          (ascii "5"))).setupBody.Body
        (newConn [ascii "helloGET /b HTTP/1.1\r\n\r\n"] [])).2.2.bufr =
        (pending (newConn [ascii "helloGET /b HTTP/1.1\r\n\r\n"] []).bufr).drop (5 : Int).toNat :=
  Body_exactly_content_length
    (requestWith (ascii "POST") (headerOf (ascii "Content-Length") (ascii "5")))
    (newConn [ascii "helloGET /b HTTP/1.1\r\n\r\n"] []) 5 (List.replicate 8 512)
    (by decide) rfl (by decide) ⟨by decide, by decide!, rfl⟩ (by decide!) (by decide) (by decide!)

/-- The whole path at a concrete input: a POST request with
`Content-Length: 5` followed by `hello` and the next request.  The body reads
as `hello` and ends with `io.EOF`; the next request is left pending. -/
theorem readRequest_body_example :
    bodyOf (readRequest parseOriginForm 6
      (newConn [ascii "POST /a HTTP/1.1\r\nContent-Length: 5\r\n\r\nhelloGET /b HTTP/1.1\r\n\r\n"]
        [])) [2, 2, 2, 2] =
      some (ascii "hello", some GoError.EOF, ascii "GET /b HTTP/1.1\r\n\r\n") := by
  decide!

/-- C16. For a POST or PUT request whose Content-Length header is absent,
empty, not a decimal integer in the 64-bit range, or negative, the body is
empty: every read of it returns no bytes and `io.EOF` and leaves the body and
the connection as they were; `setupBody` raises no error. -/
theorem setupBody_unusable_length (r : Request)
    (hm : r.Method = ascii "POST" ∨ r.Method = ascii "PUT")
    (hcl : r.Header (ascii "Content-Length") = none ∨
      r.Header.Get (ascii "Content-Length") = [] ∨
      (∃ e, ParseInt (r.Header.Get (ascii "Content-Length")) = Except.error e) ∨
      (∃ n, ParseInt (r.Header.Get (ascii "Content-Length")) = Except.ok n ∧ n < 0))
    (c : conn) (k : Nat) :
    r.setupBody.Body.Read c k = (([], some GoError.EOF), r.setupBody.Body, c) := by
  have h1 : ¬ (r.Method ≠ ascii "POST" ∧ r.Method ≠ ascii "PUT") := by
    rcases hm with h | h
    · exact fun hc => hc.1 h
    · exact fun hc => hc.2 h
  have heof : ∀ b : Body, b = Body.eofReader →
      b.Read c k = (([], some GoError.EOF), b, c) := by
    intro b hb; subst hb; rfl
  have hempty : r.Header.Get (ascii "Content-Length") = [] →
      r.setupBody.Body = Body.eofReader := by
    intro he
    unfold Request.setupBody
    rw [if_neg h1]
    simp only [he, ne_eq, not_true_eq_false, ↓reduceIte]
  rcases hcl with h | h | ⟨e, h⟩ | ⟨n, h, hneg⟩
  · exact heof _ (hempty (by simp [Header.Get, h]))
  · exact heof _ (hempty h)
  · by_cases he : r.Header.Get (ascii "Content-Length") = []
    · exact heof _ (hempty he)
    · apply heof
      unfold Request.setupBody
      rw [if_neg h1]
      simp only [he, ne_eq, not_false_eq_true, ↓reduceIte, h]
  · rw [setupBody_limit hm h]
    simp only [Body.Read, show n ≤ 0 by omega, ↓reduceIte]

/-- C16, at a POST request with the header `Content-Length: -5`. -/
theorem setupBody_unusable_length_witness :
    (requestWith (ascii "POST") (headerOf (ascii "Content-Length")
        (ascii "-5"))).setupBody.Body.Read (newConn [ascii "hello"] []) 512 =
      (([], some GoError.EOF),
        (requestWith (ascii "POST") (headerOf (ascii "Content-Length")
          (ascii "-5"))).setupBody.Body, newConn [ascii "hello"] []) :=
  setupBody_unusable_length
    (requestWith (ascii "POST") (headerOf (ascii "Content-Length") (ascii "-5")))
    (by decide) (Or.inr (Or.inr (Or.inr ⟨-5, rfl, by decide⟩))) _ _

/-! ### The serve loop -/


/-- How the loop of `serve` can be left: after complete rounds, a round ends
with a parse error, with a failed flush, or with a panic of the handler. -/
theorem serveLoop_exit (P : Bytes → Except GoError URL) (svr : Server) (fuel : Nat) :
    ∀ (i : Nat) (c : conn) (log : List Event) (pan : Bool) (c1 : conn) (log1 : List Event),
      serveLoop P svr fuel i c log = some (pan, c1, log1) →
      ∃ mid N,
        (pan = false ∧ ∃ e, log1 = log ++ mid ++ [Event.parse N, Event.parseFailed e]) ∨
        (pan = false ∧ ∃ m t,
          log1 = log ++ mid ++ [Event.parse N, Event.handled m t, Event.flushFailed]) ∨
        (pan = true ∧ ∃ m t, log1 = log ++ mid ++ [Event.parse N, Event.handled m t]) := by
  induction fuel with
  | zero => intro i c log pan c1 log1 h; simp [serveLoop] at h
  | succ n ih =>
    intro i c log pan c1 log1 h
    rw [serveLoop] at h
    split at h
    · simp at h
    · rename_i e c2 hr
      simp only [Option.some.injEq, Prod.mk.injEq] at h
      obtain ⟨h1, _, h3⟩ := h
      exact ⟨[], c.bufr.rd.N, Or.inl ⟨h1.symm, e, by simp [← h3]⟩⟩
    · rename_i req c2 hr
      simp only at h
      split at h
      · simp only [Option.some.injEq, Prod.mk.injEq] at h
        obtain ⟨h1, _, h3⟩ := h
        exact ⟨[], c.bufr.rd.N,
          Or.inr (Or.inr ⟨h1.symm, req.Method, req.RequestURL, by simp [← h3]⟩)⟩
      · split at h
        · simp only [Option.some.injEq, Prod.mk.injEq] at h
          obtain ⟨h1, _, h3⟩ := h
          exact ⟨[], c.bufr.rd.N,
            Or.inr (Or.inl ⟨h1.symm, req.Method, req.RequestURL, by simp [← h3]⟩)⟩
        · obtain ⟨mid, N, hcase⟩ := ih _ _ _ _ _ _ h
          refine ⟨[Event.parse c.bufr.rd.N, Event.handled req.Method req.RequestURL,
            Event.flushed] ++ mid, N, ?_⟩
          rcases hcase with ⟨hp, e, hl⟩ | ⟨hp, m, t, hl⟩ | ⟨hp, m, t, hl⟩
          · exact Or.inl ⟨hp, e, by simp [hl]⟩
          · exact Or.inr (Or.inl ⟨hp, m, t, by simp [hl]⟩)
          · exact Or.inr (Or.inr ⟨hp, m, t, by simp [hl]⟩)

/-- C19. Every run of `serve` that ends, ends with the connection closed and
with no panic leaving `serve`, whatever the exit path: a request that failed
to parse (end of stream on the request line included), after which the
handler is not called and nothing is flushed; a failed flush; or a panic of
the handler in any round, which is recovered. -/
theorem serve_closes (P : Bytes → Except GoError URL) (svr : Server) (fuel : Nat) (c : conn)
    (res : ServeResult) (h : serve P svr fuel c = some res) :
    res.c.closed = true ∧ res.panicOut = false ∧
      ∃ mid N,
        (∃ e, res.log = mid ++ [Event.parse N, Event.parseFailed e, Event.closed]) ∨
        (∃ m t, res.log =
          mid ++ [Event.parse N, Event.handled m t, Event.flushFailed, Event.closed]) ∨
        (∃ m t, res.log =
          mid ++ [Event.parse N, Event.handled m t, Event.recovered, Event.closed]) := by
  unfold serve at h
  split at h
  · simp at h
  · rename_i pan c1 log hl
    simp only [Option.some.injEq] at h
    subst h
    refine ⟨rfl, rfl, ?_⟩
    obtain ⟨mid, N, hcase⟩ := serveLoop_exit P svr fuel 0 c [] pan c1 log hl
    refine ⟨mid, N, ?_⟩
    rcases hcase with ⟨hp, e, hlog⟩ | ⟨hp, m, t, hlog⟩ | ⟨hp, m, t, hlog⟩
    · exact Or.inl ⟨e, by simp [hp, hlog]⟩
    · exact Or.inr (Or.inl ⟨m, t, by simp [hp, hlog]⟩)
    · exact Or.inr (Or.inr ⟨m, t, by simp [hp, hlog]⟩)

/-- C19, at a concrete run: one request, then the client closes the stream. -/
theorem serve_closes_witness :
    ∃ res, serve parseOriginForm quietServer 8 (newConn [ascii "GET /a HTTP/1.1\r\n\r\n"] []) =
        some res ∧
      res.c.closed = true ∧ res.panicOut = false ∧
      ∃ mid N,
        (∃ e, res.log = mid ++ [Event.parse N, Event.parseFailed e, Event.closed]) ∨
        (∃ m t, res.log =
          mid ++ [Event.parse N, Event.handled m t, Event.flushFailed, Event.closed]) ∨
        (∃ m t, res.log =
          mid ++ [Event.parse N, Event.handled m t, Event.recovered, Event.closed]) := by
  have hsome : (serve parseOriginForm quietServer 8
      (newConn [ascii "GET /a HTTP/1.1\r\n\r\n"] [])).isSome = true := by decide!
  obtain ⟨res, hres⟩ := Option.isSome_iff_exists.mp hsome
  exact ⟨res, hres, serve_closes _ _ _ _ res hres⟩

/-- The three exit paths of `serve` at concrete runs: end of stream on the
request line after one served request; a panic of the handler in the second
round; a failed flush in the first round. -/
theorem serve_exit_examples :
    serveSummary (serve parseOriginForm quietServer 8
      (newConn [ascii "GET /a HTTP/1.1\r\n\r\n"] [])) =
      some ([Event.parse (2 ^ 20), Event.handled (ascii "GET") (ascii "/a"), Event.flushed,
             Event.parse (2 ^ 63 - 1), Event.parseFailed (GoError.msg "readLine error"),
             Event.closed], true, false) ∧
    serveSummary (serve parseOriginForm (faultyServer (ascii "/boom")) 8
      (newConn [ascii "GET /a HTTP/1.1\r\n\r\nGET /boom HTTP/1.1\r\n\r\n"] [])) =
      some ([Event.parse (2 ^ 20), Event.handled (ascii "GET") (ascii "/a"), Event.flushed,
             Event.parse (2 ^ 63 - 1), Event.handled (ascii "GET") (ascii "/boom"),
             Event.recovered, Event.closed], true, false) ∧
    serveSummary (serve parseOriginForm (brokenPipeServer 0) 8
      (newConn [ascii "GET /a HTTP/1.1\r\n\r\nGET /b HTTP/1.1\r\n\r\n"] [])) =
      some ([Event.parse (2 ^ 20), Event.handled (ascii "GET") (ascii "/a"),
             Event.flushFailed, Event.closed], true, false) := by
  decide!

/-! ### The byte budget -/


theorem LimitedReader_Read_N (l : LimitedReader) (k : Nat) : (l.Read k).2.N ≤ l.N := by
  unfold LimitedReader.Read
  split
  · exact le_refl _
  · simp only
    omega

theorem fillLoop_N (i : Nat) : ∀ b : Reader, (fillLoop i b).rd.N ≤ b.rd.N := by
  induction i with
  | zero => intro b; exact le_refl _
  | succ n ih =>
    intro b
    rw [fillLoop]
    have h := LimitedReader_Read_N b.rd (b.buf.length - b.w)
    split
    · exact h
    · split
      · exact h
      · exact le_trans (ih _) h

theorem fill_N (b : Reader) : (fill b).rd.N ≤ b.rd.N := by
  unfold fill
  split
  · exact fillLoop_N 100 _
  · exact fillLoop_N 100 _

theorem ReadSliceLoop_N (fuel : Nat) : ∀ (s : Nat) (b : Reader)
    (x : (Slice × Option GoError) × Reader), ReadSliceLoop fuel s b = some x →
    x.2.rd.N ≤ b.rd.N := by
  induction fuel with
  | zero => intro s b x h; simp [ReadSliceLoop] at h
  | succ n ih =>
    intro s b x h
    rw [ReadSliceLoop] at h
    split at h
    · simp only [Option.some.injEq] at h; subst h; exact le_refl _
    · split at h
      · simp only [Option.some.injEq] at h; subst h; exact le_refl _
      · split at h
        · simp only [Option.some.injEq] at h; subst h; exact le_refl _
        · exact le_trans (ih _ _ _ h) (fill_N b)

theorem ReadLine_N {fuel : Nat} {b : Reader} {x : (Slice × Bool × Option GoError) × Reader}
    (h : ReadLine fuel b = some x) : x.2.rd.N ≤ b.rd.N := by
  unfold ReadLine ReadSlice at h
  cases hs : ReadSliceLoop fuel 0 b with
  | none => simp [hs] at h
  | some y =>
    have hy := ReadSliceLoop_N fuel 0 b y hs
    obtain ⟨⟨line, err⟩, b1⟩ := y
    simp only [hs] at h
    repeat' split at h
    all_goals
      simp only [Option.some.injEq] at h
      subst h
      exact hy

theorem appendSlice_rd (b : Reader) (p : Buf) (l : Slice) : (appendSlice b p l).2.rd = b.rd := by
  unfold appendSlice
  cases p with
  | view s => simp only; split <;> rfl
  | own d => rfl

theorem readLineLoop_N (fuel : Nat) : ∀ (b : Reader) (p : Buf) (more : Bool)
    (x : (Bytes × Option GoError) × Reader), readLineLoop fuel b p more = some x →
    x.2.rd.N ≤ b.rd.N := by
  induction fuel with
  | zero =>
    intro b p more x h
    cases more with
    | false => simp only [readLineLoop, ↓reduceIte, Option.some.injEq] at h; subst h; exact le_refl _
    | true => simp [readLineLoop] at h
  | succ n ih =>
    intro b p more x h
    cases more with
    | false => simp only [readLineLoop, ↓reduceIte, Option.some.injEq] at h; subst h; exact le_refl _
    | true =>
      simp only [readLineLoop, Bool.true_eq_false, ↓reduceIte] at h
      cases hr : ReadLine (n + 1) b with
      | none => simp [hr] at h
      | some y =>
        have hy := ReadLine_N hr
        obtain ⟨⟨l, more1, err⟩, b1⟩ := y
        simp only [hr] at h
        split at h
        · simp only [Option.some.injEq] at h; subst h; exact hy
        · have := ih _ _ _ _ h
          rw [appendSlice_rd] at this
          exact le_trans this hy

theorem readLine_N {fuel : Nat} {b : Reader} {x : (Bytes × Option GoError) × Reader}
    (h : readLine fuel b = some x) : x.2.rd.N ≤ b.rd.N := by
  unfold readLine at h
  cases hr : ReadLine fuel b with
  | none => simp [hr] at h
  | some y =>
    have hy := ReadLine_N hr
    obtain ⟨⟨p, more, err⟩, b1⟩ := y
    simp only [hr] at h
    split at h
    · simp only [Option.some.injEq] at h; subst h; exact hy
    · exact le_trans (readLineLoop_N _ _ _ _ _ h) hy

theorem readHeaderLoop_N (fuel : Nat) : ∀ (b : Reader) (header : Header)
    (x : Except GoError Header × Reader), readHeaderLoop fuel b header = some x →
    x.2.rd.N ≤ b.rd.N := by
  induction fuel with
  | zero => intro b header x h; simp [readHeaderLoop] at h
  | succ n ih =>
    intro b header x h
    rw [readHeaderLoop] at h
    cases hr : readLine (n + 1) b with
    | none => simp [hr] at h
    | some y =>
      have hy := readLine_N hr
      obtain ⟨⟨line, err⟩, b1⟩ := y
      simp only [hr] at h
      repeat' split at h
      all_goals first
        | (simp only [Option.some.injEq] at h; subst h; exact hy)
        | exact le_trans (ih _ _ _ h) hy

/-- Reading lines and headers never raises the byte budget. -/
theorem readHeader_N {fuel : Nat} {b : Reader} {x : Except GoError Header × Reader}
    (h : readHeader fuel b = some x) : x.2.rd.N ≤ b.rd.N :=
  readHeaderLoop_N fuel b GoMap.empty x h

/-- C17 as stated fails: on a keep-alive connection the second request (and
the read after it) is parsed with the budget `2^63-1` that the first request
left; only the first request starts with the 1 MiB cap. -/
theorem serve_budget_not_reset :
    (serve parseOriginForm quietServer 8
      (newConn [ascii "GET /a HTTP/1.1\r\n\r\nGET /b HTTP/1.1\r\n\r\n"] [])).map
        (fun res => res.log) =
      some [Event.parse (2 ^ 20), Event.handled (ascii "GET") (ascii "/a"), Event.flushed,
            Event.parse (2 ^ 63 - 1), Event.handled (ascii "GET") (ascii "/b"), Event.flushed,
            Event.parse (2 ^ 63 - 1), Event.parseFailed (GoError.msg "readLine error"),
            Event.closed] := by
  decide!

/-- C17, amended. The byte budget is set to 1 MiB when the connection is
created.  While `readRequest` reads the request line and the headers the
budget never grows; when `readRequest` fails it is left at or below its value
at the start; `readRequest` sets it to `2^63-1` when, and only when, it
succeeds, that is after the headers were parsed. -/
theorem budget_of_readRequest (P : Bytes → Except GoError URL) (fuel : Nat) (c c1 : conn)
    (res : Except GoError Request) (h : readRequest P fuel c = some (res, c1)) :
    (∀ rwc addr, (newConn rwc addr).bufr.rd.N = 2 ^ 20) ∧
    (∀ x b1, readLine fuel c.bufr = some (x, b1) →
      b1.rd.N ≤ c.bufr.rd.N ∧
      ∀ y b2, readHeader fuel b1 = some (y, b2) → b2.rd.N ≤ c.bufr.rd.N) ∧
    (∀ e, res = Except.error e → c1.bufr.rd.N ≤ c.bufr.rd.N) ∧
    (∀ r, res = Except.ok r → c1.bufr.rd.N = noLimit) := by
  refine ⟨fun _ _ => rfl, ?_, ?_, ?_⟩
  · intro x b1 hl
    have h1 := readLine_N hl
    exact ⟨h1, fun y b2 hh => le_trans (readHeader_N hh) h1⟩
  · intro e he
    subst he
    unfold readRequest at h
    cases hl : readLine fuel c.bufr with
    | none => simp [hl] at h
    | some x =>
      have h1 := readLine_N hl
      obtain ⟨⟨line, err⟩, b1⟩ := x
      simp only [hl] at h
      split at h
      · simp only [Option.some.injEq, Prod.mk.injEq] at h
        rw [← h.2]; exact h1
      · split at h
        · simp only [Option.some.injEq, Prod.mk.injEq] at h
          rw [← h.2]; exact h1
        · split at h
          · simp only [Option.some.injEq, Prod.mk.injEq] at h
            rw [← h.2]; exact h1
          · cases hh : readHeader fuel b1 with
            | none => simp [hh] at h
            | some y =>
              have h2 := readHeader_N hh
              obtain ⟨hd, b2⟩ := y
              cases hd with
              | error e2 =>
                simp only [hh, Option.some.injEq, Prod.mk.injEq] at h
                rw [← h.2]; exact le_trans h2 h1
              | ok header =>
                simp only [hh, Option.some.injEq, Prod.mk.injEq] at h
                exact absurd h.1 (by simp)
  · intro r hr
    subst hr
    unfold readRequest at h
    cases hl : readLine fuel c.bufr with
    | none => simp [hl] at h
    | some x =>
      obtain ⟨⟨line, err⟩, b1⟩ := x
      simp only [hl] at h
      split at h
      · simp at h
      · split at h
        · simp at h
        · split at h
          · simp at h
          · cases hh : readHeader fuel b1 with
            | none => simp [hh] at h
            | some y =>
              obtain ⟨hd, b2⟩ := y
              cases hd with
              | error e2 => simp [hh] at h
              | ok header =>
                simp only [hh, Option.some.injEq, Prod.mk.injEq] at h
                rw [← h.2]

/-- C17 amended, at a concrete request on a fresh connection. -/
theorem budget_of_readRequest_witness :
    ∃ res c1, readRequest parseOriginForm 6 (newConn [ascii "GET /a HTTP/1.1\r\n\r\n"] []) =
        some (res, c1) ∧
      (∀ rwc addr, (newConn rwc addr).bufr.rd.N = 2 ^ 20) ∧
      (∀ x b1, readLine 6 (newConn [ascii "GET /a HTTP/1.1\r\n\r\n"] []).bufr = some (x, b1) →
        b1.rd.N ≤ (newConn [ascii "GET /a HTTP/1.1\r\n\r\n"] []).bufr.rd.N ∧
        ∀ y b2, readHeader 6 b1 = some (y, b2) →
          b2.rd.N ≤ (newConn [ascii "GET /a HTTP/1.1\r\n\r\n"] []).bufr.rd.N) ∧
      (∀ e, res = Except.error e →
        c1.bufr.rd.N ≤ (newConn [ascii "GET /a HTTP/1.1\r\n\r\n"] []).bufr.rd.N) ∧
      (∀ r, res = Except.ok r → c1.bufr.rd.N = noLimit) := by
  have hsome : (readRequest parseOriginForm 6
      (newConn [ascii "GET /a HTTP/1.1\r\n\r\n"] [])).isSome = true := by decide!
  obtain ⟨⟨res, c1⟩, hres⟩ := Option.isSome_iff_exists.mp hsome
  exact ⟨res, c1, hres, budget_of_readRequest _ _ _ _ res hres⟩

/-- C18 fails on this input. On a fresh connection the client sends a
request line, then the lines `A:a...a\r` (4096 bytes), `K:v...v` and `X`, and
then one MiB of `z`; no empty line is sent anywhere.  The first header line
fills the buffer and ends in a carriage return; the carriage return that
`readLine` then appends in place overwrites the unread `X`, the stream reads
as an empty line, and `readRequest` succeeds after 8208 bytes. -/
theorem readRequest_succeeds_over_budget :
    (([ascii "GET / HTTP/1.1\r\n" ++
       ascii "A:" ++ List.replicate 4093 97 ++ ascii "\r" ++ ascii "\r\n" ++
       ascii "K:" ++ List.replicate 4088 118 ++ ascii "\r\n" ++
       ascii "X" ++ ascii "\n"] ++ List.replicate 256 (List.replicate 4096 122)).map
        List.length).sum = 8208 + 2 ^ 20 ∧
    requestLineOf (readRequest parseOriginForm 6 (newConn
      ([ascii "GET / HTTP/1.1\r\n" ++
        ascii "A:" ++ List.replicate 4093 97 ++ ascii "\r" ++ ascii "\r\n" ++
        ascii "K:" ++ List.replicate 4088 118 ++ ascii "\r\n" ++
        ascii "X" ++ ascii "\n"] ++ List.replicate 256 (List.replicate 4096 122)) [])) =
      some (ascii "GET", ascii "/", ascii "HTTP/1.1") := by
  decide!

/-! ### Consistency of the buffered reader -/

theorem IndexByte_lt (c : Nat) : ∀ (l : Bytes) (i : Nat), IndexByte l c = some i → i < l.length := by
  intro l
  induction l with
  | nil => intro i h; simp [IndexByte] at h
  | cons x xs ih =>
    intro i h
    rw [IndexByte] at h
    split at h
    · simp only [Option.some.injEq] at h; subst h; simp
    · cases hx : IndexByte xs c with
      | none => simp [hx] at h
      | some j =>
        simp only [hx, Option.map_some', Option.some.injEq] at h
        subst h
        have := ih j hx
        simp only [List.length_cons]; omega

theorem Conn_Read_len (R : Conn) (k : Nat) :
    (Conn.Read R k).1.1.length ≤ k ∧ ((Conn.Read R k).1.2 ≠ none → (Conn.Read R k).1.1 = []) := by
  cases R with
  | nil => simp [Conn.Read]
  | cons c cs =>
    unfold Conn.Read
    by_cases h : c.length ≤ k
    · simp [h]
    · simp only [h, ↓reduceIte, List.length_take]
      exact ⟨by omega, by simp⟩

theorem LimitedReader_Read_len (l : LimitedReader) (k : Nat) :
    (l.Read k).1.1.length ≤ k ∧ ((l.Read k).1.2 ≠ none → (l.Read k).1.1 = []) := by
  unfold LimitedReader.Read
  split
  · simp
  · obtain ⟨h1, h2⟩ := Conn_Read_len l.R (if (k : Int) > l.N then l.N.toNat else k)
    refine ⟨le_trans h1 ?_, h2⟩
    split <;> omega

/-- The read loop of `fill` keeps the positions in range; when it ends with an
error it has added no byte. -/
theorem fillLoop_WF (i : Nat) : ∀ b : Reader, b.w ≤ b.buf.length →
    (fillLoop i b).r = b.r ∧ (fillLoop i b).buf.length = b.buf.length ∧
    b.w ≤ (fillLoop i b).w ∧ (fillLoop i b).w ≤ b.buf.length ∧
    (b.err = none → (fillLoop i b).err = none ∨ (fillLoop i b).w = b.w) := by
  induction i with
  | zero => intro b h; exact ⟨rfl, rfl, le_refl _, h, fun _ => Or.inr rfl⟩
  | succ n ih =>
    intro b h
    obtain ⟨h1, h2⟩ := LimitedReader_Read_len b.rd (b.buf.length - b.w)
    generalize hres : b.rd.Read (b.buf.length - b.w) = res at h1 h2
    have hlen : (b.buf.take b.w ++ res.1.1 ++ b.buf.drop (b.w + res.1.1.length)).length
        = b.buf.length := by
      simp only [List.length_append, List.length_take, List.length_drop]
      omega
    rw [fillLoop]
    simp only [hres]
    split
    · rename_i e he
      have hd : res.1.1.length = 0 := by
        rw [h2 (by rw [he]; simp)]; rfl
      exact ⟨rfl, hlen, Nat.le_add_right _ _, by show b.w + _ ≤ _; omega,
        fun _ => Or.inr (by show b.w + _ = b.w; omega)⟩
    · rename_i he
      split
      · exact ⟨rfl, hlen, Nat.le_add_right _ _, by show b.w + _ ≤ _; omega, fun hb => Or.inl hb⟩
      · rename_i hd
        have hd0 : res.1.1.length = 0 := by omega
        obtain ⟨i1, i2, i3, i4, i5⟩ := ih
          { b with buf := b.buf.take b.w ++ res.1.1 ++ b.buf.drop (b.w + res.1.1.length),
                   w := b.w + res.1.1.length, rd := res.2 }
          (by show b.w + _ ≤ _; rw [hlen]; omega)
        refine ⟨i1, i2.trans hlen, le_trans (Nat.le_add_right _ _) i3, ?_, ?_⟩
        · have := i4; rw [hlen] at this; exact this
        · intro hb
          rcases i5 hb with h | h
          · exact Or.inl h
          · right
            rw [h]
            show b.w + _ = b.w
            omega

theorem fill_WF (b : Reader) (h1 : b.r ≤ b.w) (h2 : b.w ≤ b.buf.length) :
    (fill b).r = 0 ∧ (fill b).buf.length = b.buf.length ∧
    b.w - b.r ≤ (fill b).w ∧ (fill b).w ≤ b.buf.length ∧
    (b.err = none → (fill b).err = none ∨ (fill b).w = b.w - b.r) := by
  unfold fill
  by_cases hr : b.r > 0
  · simp only [hr, ↓reduceIte]
    have hlen : ((b.buf.take b.w).drop b.r ++ b.buf.drop (b.w - b.r)).length = b.buf.length := by
      simp only [List.length_append, List.length_take, List.length_drop]
      omega
    obtain ⟨i1, i2, i3, i4, i5⟩ := fillLoop_WF 100
      { b with buf := (b.buf.take b.w).drop b.r ++ b.buf.drop (b.w - b.r),
               w := b.w - b.r, r := 0 } (by simp only [hlen]; omega)
    simp only [hlen] at i1 i2 i3 i4 i5
    exact ⟨i1, i2, i3, i4, i5⟩
  · simp only [hr, ↓reduceIte]
    obtain ⟨i1, i2, i3, i4, i5⟩ := fillLoop_WF 100 b h2
    have : b.r = 0 := by omega
    rw [this] at i1 ⊢
    simp only [Nat.sub_zero]
    exact ⟨i1, i2, i3, i4, i5⟩

/-- `ReadSlice` leaves the reader consistent and returns a slice of its buffer. -/
theorem ReadSliceLoop_WF (fuel : Nat) : ∀ (s : Nat) (b : Reader)
    (x : (Slice × Option GoError) × Reader),
    b.r ≤ b.w → b.w ≤ b.buf.length → (b.err = none ∨ b.w ≤ b.r + s) →
    ReadSliceLoop fuel s b = some x →
    x.2.WF ∧ x.2.buf.length = b.buf.length ∧ x.1.1.valid x.2 := by
  induction fuel with
  | zero => intro s b x _ _ _ h; simp [ReadSliceLoop] at h
  | succ n ih =>
    intro s b x hrw hwl herr h
    rw [ReadSliceLoop] at h
    split at h
    · rename_i i hi
      have hlt := IndexByte_lt 10 _ i hi
      simp only [List.length_drop, List.length_take] at hlt
      have he : b.err = none := by
        rcases herr with h1 | h1
        · exact h1
        · omega
      simp only [Option.some.injEq] at h
      subst h
      refine ⟨⟨?_, hwl, he⟩, rfl, ?_, ?_, ?_⟩
      · show b.r + (i + s) + 1 ≤ b.w; omega
      · show b.r + (i + s + 1) ≤ b.buf.length; omega
      · show i + s + 1 ≤ b.buf.length - b.r; omega
      · show b.r + (b.buf.length - b.r) ≤ b.buf.length; omega
    · split at h
      · simp only [Option.some.injEq] at h
        subst h
        refine ⟨⟨le_refl _, hwl, rfl⟩, rfl, ?_, ?_, ?_⟩
        · show b.r + (b.w - b.r) ≤ b.buf.length; omega
        · show b.w - b.r ≤ b.buf.length - b.r; omega
        · show b.r + (b.buf.length - b.r) ≤ b.buf.length; omega
      · rename_i he
        split at h
        · simp only [Option.some.injEq] at h
          subst h
          refine ⟨⟨le_refl _, hwl, he⟩, rfl, ?_, ?_, ?_⟩
          · show 0 + b.buf.length ≤ b.buf.length; omega
          · exact le_refl _
          · show 0 + b.buf.length ≤ b.buf.length; omega
        · obtain ⟨f1, f2, f3, f4, f5⟩ := fill_WF b hrw hwl
          obtain ⟨g1, g2, g3⟩ := ih (b.w - b.r) (fill b) x (by omega) (by omega)
            (by
              rcases f5 he with h1 | h1
              · exact Or.inl h1
              · right; omega) h
          exact ⟨g1, g2.trans f2, g3⟩

theorem ReadLine_WF {fuel : Nat} {b : Reader} {x : (Slice × Bool × Option GoError) × Reader}
    (hwf : b.WF) (h : ReadLine fuel b = some x) :
    x.2.WF ∧ x.2.buf.length = b.buf.length ∧ x.1.1.valid x.2 := by
  unfold ReadLine ReadSlice at h
  cases hs : ReadSliceLoop fuel 0 b with
  | none => simp [hs] at h
  | some y =>
    obtain ⟨⟨hr, hw, he⟩, hl, hv1, hv2, hv3⟩ :=
      ReadSliceLoop_WF fuel 0 b y hwf.1 hwf.2.1 (Or.inl hwf.2.2) hs
    obtain ⟨⟨line, err⟩, b1⟩ := y
    simp only [hs] at h
    simp only at hr hw he hl hv1 hv2 hv3
    repeat' split at h
    all_goals
      simp only [Option.some.injEq] at h
      subst h
      refine ⟨⟨?_, ?_, ?_⟩, ?_, ?_, ?_, ?_⟩
    all_goals first
      | assumption
      | (simp only [Slice.nil]; omega)

theorem appendSlice_WF (b : Reader) (p : Buf) (l : Slice) (hwf : b.WF) (hl : l.valid b)
    (hp : ∀ s, p = Buf.view s → s.valid b) :
    (appendSlice b p l).2.WF ∧ (appendSlice b p l).2.buf.length = b.buf.length ∧
    (∀ s, (appendSlice b p l).1 = Buf.view s → s.valid (appendSlice b p l).2) := by
  unfold appendSlice
  cases p with
  | own d => exact ⟨hwf, rfl, fun s hs => by simp at hs⟩
  | view s =>
    obtain ⟨p1, p2, p3⟩ := hp s rfl
    obtain ⟨l1, _, _⟩ := hl
    simp only
    split
    · rename_i hfit
      have hlen : (b.buf.take (s.off + s.len) ++ l.bytes b ++
          b.buf.drop (s.off + s.len + l.len)).length = b.buf.length := by
        simp only [Slice.bytes, List.length_append, List.length_take, List.length_drop]
        omega
      refine ⟨⟨hwf.1, ?_, hwf.2.2⟩, hlen, ?_⟩
      · show b.w ≤ _
        rw [hlen]; exact hwf.2.1
      · intro s2 hs2
        simp only [Buf.view.injEq] at hs2
        subst hs2
        refine ⟨?_, ?_, ?_⟩
        · show s.off + (s.len + l.len) ≤ _
          rw [hlen]; omega
        · exact hfit
        · show s.off + s.cap ≤ _
          rw [hlen]; exact p3
    · exact ⟨hwf, rfl, fun s2 hs2 => by simp at hs2⟩

theorem readLineLoop_WF (fuel : Nat) : ∀ (b : Reader) (p : Buf) (more : Bool)
    (x : (Bytes × Option GoError) × Reader), b.WF → (∀ s, p = Buf.view s → s.valid b) →
    readLineLoop fuel b p more = some x → x.2.WF ∧ x.2.buf.length = b.buf.length := by
  induction fuel with
  | zero =>
    intro b p more x hwf _ h
    cases more with
    | false =>
      simp only [readLineLoop, ↓reduceIte, Option.some.injEq] at h
      subst h; exact ⟨hwf, rfl⟩
    | true => simp [readLineLoop] at h
  | succ n ih =>
    intro b p more x hwf hp h
    cases more with
    | false =>
      simp only [readLineLoop, ↓reduceIte, Option.some.injEq] at h
      subst h; exact ⟨hwf, rfl⟩
    | true =>
      simp only [readLineLoop, Bool.true_eq_false, ↓reduceIte] at h
      cases hr : ReadLine (n + 1) b with
      | none => simp [hr] at h
      | some y =>
        obtain ⟨hwf1, hl1, hv1⟩ := ReadLine_WF hwf hr
        obtain ⟨⟨l, more1, err⟩, b1⟩ := y
        simp only [hr] at h
        simp only at hwf1 hl1 hv1
        have hp1 : ∀ s, p = Buf.view s → s.valid b1 := by
          intro s hs
          obtain ⟨q1, q2, q3⟩ := hp s hs
          exact ⟨by rw [hl1]; exact q1, q2, by rw [hl1]; exact q3⟩
        split at h
        · simp only [Option.some.injEq] at h
          subst h; exact ⟨hwf1, hl1⟩
        · obtain ⟨a1, a2, a3⟩ := appendSlice_WF b1 p l hwf1 hv1 hp1
          obtain ⟨r1, r2⟩ := ih _ _ _ _ a1 a3 h
          exact ⟨r1, r2.trans (a2.trans hl1)⟩

/-- `readLine` leaves the reader consistent. -/
theorem readLine_WF {fuel : Nat} {b : Reader} {x : (Bytes × Option GoError) × Reader}
    (hwf : b.WF) (h : readLine fuel b = some x) :
    x.2.WF ∧ x.2.buf.length = b.buf.length := by
  unfold readLine at h
  cases hr : ReadLine fuel b with
  | none => simp [hr] at h
  | some y =>
    obtain ⟨hwf1, hl1, hv1⟩ := ReadLine_WF hwf hr
    obtain ⟨⟨p, more, err⟩, b1⟩ := y
    simp only [hr] at h
    simp only at hwf1 hl1 hv1
    split at h
    · simp only [Option.some.injEq] at h
      subst h; exact ⟨hwf1, hl1⟩
    · obtain ⟨r1, r2⟩ := readLineLoop_WF fuel b1 (Buf.view p) more x hwf1
        (fun s hs => by simp only [Buf.view.injEq] at hs; subst hs; exact hv1) h
      exact ⟨r1, r2.trans hl1⟩

theorem readHeaderLoop_WF (fuel : Nat) : ∀ (b : Reader) (header : Header)
    (x : Except GoError Header × Reader), b.WF → readHeaderLoop fuel b header = some x →
    x.2.WF := by
  induction fuel with
  | zero => intro b header x _ h; simp [readHeaderLoop] at h
  | succ n ih =>
    intro b header x hwf h
    rw [readHeaderLoop] at h
    cases hr : readLine (n + 1) b with
    | none => simp [hr] at h
    | some y =>
      obtain ⟨hy, _⟩ := readLine_WF hwf hr
      obtain ⟨⟨line, err⟩, b1⟩ := y
      simp only [hr] at h
      simp only at hy
      repeat' split at h
      all_goals first
        | (simp only [Option.some.injEq] at h; subst h; exact hy)
        | exact ih _ _ _ hy h

/-- `readRequest` keeps the reader of the connection consistent. -/
theorem readRequest_WF (P : Bytes → Except GoError URL) (fuel : Nat) (c c1 : conn)
    (res : Except GoError Request) (hwf : c.bufr.WF)
    (h : readRequest P fuel c = some (res, c1)) : c1.bufr.WF := by
  unfold readRequest at h
  cases hl : readLine fuel c.bufr with
  | none => simp [hl] at h
  | some x =>
    obtain ⟨h1, _⟩ := readLine_WF hwf hl
    obtain ⟨⟨line, err⟩, b1⟩ := x
    simp only [hl] at h
    simp only at h1
    split at h
    · simp only [Option.some.injEq, Prod.mk.injEq] at h
      rw [← h.2]; exact h1
    · split at h
      · simp only [Option.some.injEq, Prod.mk.injEq] at h
        rw [← h.2]; exact h1
      · split at h
        · simp only [Option.some.injEq, Prod.mk.injEq] at h
          rw [← h.2]; exact h1
        · cases hh : readHeader fuel b1 with
          | none => simp [hh] at h
          | some y =>
            have h2 := readHeaderLoop_WF fuel b1 GoMap.empty y h1 hh
            obtain ⟨hd, b2⟩ := y
            cases hd with
            | error e2 =>
              simp only [hh, Option.some.injEq, Prod.mk.injEq] at h
              rw [← h.2]; exact h2
            | ok header =>
              simp only [hh, Option.some.injEq, Prod.mk.injEq] at h
              rw [← h.2]; exact h2

/-- A connection made by `newConn` starts with a consistent reader. -/
theorem newConn_WF (rwc : Conn) (addr : Bytes) : (newConn rwc addr).bufr.WF :=
  ⟨le_refl _, Nat.zero_le _, rfl⟩

end Httpd
